import Mathlib

/-!
Verification of the `minetest-rs` protocol peer and wire layers.

This development shallowly embeds the relevant parts of the
`minetest-protocol` crate into Lean:

* `peer/util.rs`: `relative_distance`, `rel_to_abs` (wrapping 16-bit
  sequence numbers lifted to 64-bit absolute ids);
* `peer/reliable_receiver.rs`: the in-order reliable receive buffer;
* `peer/reliable_sender.rs`: the reliable send window with retransmit
  timers;
* `peer/split_sender.rs` and `peer/split_receiver.rs`: splitting large
  commands into chunks and reassembling them;
* `peer/peer.rs`: the peer-id assignment logic of `process_packet`;
* `wire/`: selected serializers and deserializers
  (`InventoryAction` / `InventoryLocation`, `ItemStackMetadata`, and the
  json-style string escaping they rely on).

Machine integers are modelled as `Nat` (with explicit `% 2^w` at the
places the Rust code performs wrapping casts), `Instant`/`Duration` as
milliseconds in `Nat`, `BTreeMap`/`BTreeSet` as sorted association
lists, and fallible code returns `Except`/`Option`.
-/

namespace Minetest

/-! ## peer/util.rs -/

/-- `relative_distance(a, b)` from `peer/util.rs`.
`a` and `b` are `u16` values (naturals `< 65536`).
`d = Wrapping(b) - Wrapping(a)` is the wrapping 16-bit difference;
the result is `d` when `d <= 32768` and `d - 65536` otherwise. -/
def relative_distance (a b : Nat) : Int :=
  let d : Nat := (((b : Int) - (a : Int)) % 65536).toNat
  if d ≤ 32768 then (d : Int) else (d : Int) - 65536

/-- `rel_to_abs(base, seqnum)` from `peer/util.rs`.
`base` is a `u64` (so `base as u16` is `base % 65536` and
`base as i64` wraps at `2^63`); the final `as u64` cast wraps the sum
into `[0, 2^64)`. -/
def rel_to_abs (base : Nat) (seqnum : Nat) : Nat :=
  let baseI : Int := if base < 2 ^ 63 then (base : Int) else (base : Int) - 2 ^ 64
  let delta : Int := relative_distance (base % 65536) seqnum
  (((baseI + delta) % (2 ^ 64 : Int))).toNat

/-- The constant the receiver and senders start their streams at
(`wire/packet.rs`). -/
def SEQNUM_INITIAL : Nat := 65500

/-- C4: for 16-bit `a` and `b`, `relative_distance a b` is the unique
`d` in `(-32768, 32768]` with `(a + d) % 65536 = b`. -/
theorem relative_distance_spec (a b : Nat) (ha : a < 65536) (hb : b < 65536) :
    -32768 < relative_distance a b ∧
    relative_distance a b ≤ 32768 ∧
    ((a : Int) + relative_distance a b) % 65536 = (b : Int) ∧
    ∀ d' : Int, -32768 < d' → d' ≤ 32768 →
      ((a : Int) + d') % 65536 = (b : Int) → d' = relative_distance a b := by
  unfold relative_distance
  dsimp only
  have ha' : (a : Int) < 65536 := by exact_mod_cast ha
  have hb' : (b : Int) < 65536 := by exact_mod_cast hb
  have ha0 : (0 : Int) ≤ (a : Int) := Int.natCast_nonneg a
  have hb0 : (0 : Int) ≤ (b : Int) := Int.natCast_nonneg b
  by_cases h : (((b : Int) - (a : Int)) % 65536).toNat ≤ 32768
  · rw [if_pos h]
    refine ⟨by omega, by omega, by omega, fun d' h1 h2 h3 => by omega⟩
  · rw [if_neg h]
    refine ⟨by omega, by omega, by omega, fun d' h1 h2 h3 => by omega⟩

/-- Witness for `relative_distance_spec` at `a = 65500`, `b = 10`
(wrapping forward by 46). -/
theorem relative_distance_spec_witness :
    (65500 : Nat) < 65536 ∧ (10 : Nat) < 65536 ∧
    relative_distance 65500 10 = 46 ∧
    ((65500 : Int) + relative_distance 65500 10) % 65536 = (10 : Int) := by
  refine ⟨by decide, by decide, by decide,
    (relative_distance_spec 65500 10 (by decide) (by decide)).2.2.1⟩

/-! ## A sorted association list, modelling `std::collections::BTreeMap`
with `Nat` (u64) keys. Keys are kept strictly increasing; `head?` is the
map's `first_key_value`. -/

namespace NMap

def find? {α : Type u} : List (Nat × α) → Nat → Option α
  | [], _ => none
  | (k', v) :: t, k => if k' = k then some v else find? t k

/-- `BTreeMap::entry(k).or_insert(v)`: insert `v` at `k` only if `k` is
absent. -/
def entryOrInsert {α : Type u} : List (Nat × α) → Nat → α → List (Nat × α)
  | [], k, v => [(k, v)]
  | (k', v') :: t, k, v =>
    if k < k' then (k, v) :: (k', v') :: t
    else if k = k' then (k', v') :: t
    else (k', v') :: entryOrInsert t k v

/-- `BTreeMap::insert(k, v)`: insert, overwriting any existing value. -/
def insert {α : Type u} : List (Nat × α) → Nat → α → List (Nat × α)
  | [], k, v => [(k, v)]
  | (k', v') :: t, k, v =>
    if k < k' then (k, v) :: (k', v') :: t
    else if k = k' then (k, v) :: t
    else (k', v') :: insert t k v

/-- `BTreeMap::remove(k)` (ignoring the returned value). -/
def erase {α : Type u} : List (Nat × α) → Nat → List (Nat × α)
  | [], _ => []
  | (k', v') :: t, k => if k' = k then t else (k', v') :: erase t k

/-- The `BTreeMap` representation invariant: keys strictly increase. -/
def Sorted {α : Type u} (l : List (Nat × α)) : Prop :=
  l.Pairwise (fun p q => p.1 < q.1)

theorem sorted_nil {α : Type u} : Sorted ([] : List (Nat × α)) := List.Pairwise.nil

theorem find?_eq_none_of_forall_ne {α : Type u} (l : List (Nat × α)) (k : Nat)
    (h : ∀ p ∈ l, p.1 ≠ k) : find? l k = none := by
  induction l with
  | nil => rfl
  | cons hd t ih =>
    simp only [find?, if_neg (h hd (List.mem_cons_self _ _))]
    exact ih fun p hp => h p (List.mem_cons.mpr (Or.inr hp))

theorem mem_entryOrInsert {α : Type u} {l : List (Nat × α)} {k : Nat} {v : α}
    {p : Nat × α} (h : p ∈ entryOrInsert l k v) : p ∈ l ∨ p = (k, v) := by
  induction l with
  | nil => simp only [entryOrInsert, List.mem_singleton] at h; exact Or.inr h
  | cons hd t ih =>
    unfold entryOrInsert at h
    split at h
    · rcases List.mem_cons.mp h with h1 | h1
      · exact Or.inr h1
      · exact Or.inl h1
    · split at h
      · exact Or.inl h
      · rcases List.mem_cons.mp h with h1 | h1
        · exact Or.inl (List.mem_cons.mpr (Or.inl h1))
        · rcases ih h1 with h2 | h2
          · exact Or.inl (List.mem_cons.mpr (Or.inr h2))
          · exact Or.inr h2

theorem sorted_entryOrInsert {α : Type u} {l : List (Nat × α)} (k : Nat) (v : α)
    (h : Sorted l) : Sorted (entryOrInsert l k v) := by
  induction l with
  | nil => simp only [entryOrInsert, Sorted, List.pairwise_singleton]
  | cons hd t ih =>
    rcases List.pairwise_cons.mp h with ⟨hhd, ht⟩
    unfold entryOrInsert
    split
    · rename_i hlt
      refine List.pairwise_cons.mpr ⟨?_, h⟩
      intro p hp
      rcases List.mem_cons.mp hp with h1 | h1
      · exact h1 ▸ hlt
      · exact Nat.lt_trans hlt (hhd p h1)
    · split
      · exact h
      · rename_i hlt heq
        refine List.pairwise_cons.mpr ⟨?_, ih ht⟩
        intro p hp
        rcases mem_entryOrInsert hp with h1 | h1
        · exact hhd p h1
        · subst h1; omega

theorem find?_entryOrInsert_ne {α : Type u} (l : List (Nat × α)) (k k' : Nat)
    (v : α) (hne : k' ≠ k) : find? (entryOrInsert l k v) k' = find? l k' := by
  induction l with
  | nil => simp only [entryOrInsert, find?, if_neg (Ne.symm hne)]
  | cons hd t ih =>
    unfold entryOrInsert
    split
    · simp only [find?, if_neg (Ne.symm hne)]
    · split
      · rfl
      · simp only [find?]
        split
        · rfl
        · exact ih

theorem find?_entryOrInsert_found {α : Type u} {l : List (Nat × α)} {k : Nat}
    (v : α) {v₀ : α} (hs : Sorted l) (h : find? l k = some v₀) :
    find? (entryOrInsert l k v) k = some v₀ := by
  induction l with
  | nil => exact Option.noConfusion h
  | cons hd t ih =>
    rcases List.pairwise_cons.mp hs with ⟨hhd, ht⟩
    unfold entryOrInsert
    split
    · rename_i hlt
      exfalso
      have hnone : find? (hd :: t) k = none := by
        refine find?_eq_none_of_forall_ne _ _ fun p hp => ?_
        rcases List.mem_cons.mp hp with h1 | h1
        · subst h1; omega
        · have := hhd p h1; omega
      rw [hnone] at h
      exact Option.noConfusion h
    · split
      · exact h
      · rename_i h1 h2
        have hne' : hd.1 ≠ k := fun hh => h2 hh.symm
        unfold find? at h
        rw [if_neg hne'] at h
        simp only [find?, if_neg hne']
        exact ih ht h

theorem find?_entryOrInsert_absent {α : Type u} (l : List (Nat × α)) (k : Nat)
    (v : α) (h : find? l k = none) :
    find? (entryOrInsert l k v) k = some v := by
  induction l with
  | nil => simp [entryOrInsert, find?]
  | cons hd t ih =>
    unfold find? at h
    unfold entryOrInsert
    split
    · simp [find?]
    · split
      · rename_i h1 h2
        rw [if_pos (h2 ▸ rfl)] at h
        exact Option.noConfusion h
      · rename_i h1 h2
        have hne' : hd.1 ≠ k := fun hh => h2 hh.symm
        rw [if_neg hne'] at h
        simp only [find?, if_neg hne']
        exact ih h

theorem mem_insert {α : Type u} {l : List (Nat × α)} {k : Nat} {v : α}
    {p : Nat × α} (h : p ∈ insert l k v) : p ∈ l ∨ p = (k, v) := by
  induction l with
  | nil => simp only [insert, List.mem_singleton] at h; exact Or.inr h
  | cons hd t ih =>
    unfold insert at h
    split at h
    · rcases List.mem_cons.mp h with h1 | h1
      · exact Or.inr h1
      · exact Or.inl h1
    · split at h
      · rcases List.mem_cons.mp h with h1 | h1
        · exact Or.inr h1
        · exact Or.inl (List.mem_cons.mpr (Or.inr h1))
      · rcases List.mem_cons.mp h with h1 | h1
        · exact Or.inl (List.mem_cons.mpr (Or.inl h1))
        · rcases ih h1 with h2 | h2
          · exact Or.inl (List.mem_cons.mpr (Or.inr h2))
          · exact Or.inr h2

theorem sorted_insert {α : Type u} {l : List (Nat × α)} (k : Nat) (v : α)
    (h : Sorted l) : Sorted (insert l k v) := by
  induction l with
  | nil => simp only [insert, Sorted, List.pairwise_singleton]
  | cons hd t ih =>
    rcases List.pairwise_cons.mp h with ⟨hhd, ht⟩
    unfold insert
    split
    · rename_i hlt
      refine List.pairwise_cons.mpr ⟨?_, h⟩
      intro p hp
      rcases List.mem_cons.mp hp with h1 | h1
      · exact h1 ▸ hlt
      · exact Nat.lt_trans hlt (hhd p h1)
    · split
      · rename_i h1 h2
        subst h2
        exact List.pairwise_cons.mpr ⟨hhd, ht⟩
      · rename_i h1 h2
        refine List.pairwise_cons.mpr ⟨?_, ih ht⟩
        intro p hp
        rcases mem_insert hp with h3 | h3
        · exact hhd p h3
        · subst h3; omega

theorem find?_insert_same {α : Type u} (l : List (Nat × α)) (k : Nat) (v : α)
    (hs : Sorted l) : find? (insert l k v) k = some v := by
  induction l with
  | nil => simp [insert, find?]
  | cons hd t ih =>
    rcases List.pairwise_cons.mp hs with ⟨hhd, ht⟩
    unfold insert
    split
    · simp [find?]
    · split
      · simp [find?]
      · rename_i h1 h2
        have hne' : hd.1 ≠ k := fun hh => h2 hh.symm
        simp only [find?, if_neg hne']
        exact ih ht

theorem find?_insert_ne {α : Type u} (l : List (Nat × α)) (k k' : Nat) (v : α)
    (hne : k' ≠ k) : find? (insert l k v) k' = find? l k' := by
  induction l with
  | nil => simp only [insert, find?, if_neg (Ne.symm hne)]
  | cons hd t ih =>
    unfold insert
    split
    · simp only [find?, if_neg (Ne.symm hne)]
    · split
      · rename_i h1 h2
        subst h2
        simp only [find?, if_neg (Ne.symm hne)]
      · simp only [find?]
        split
        · rfl
        · exact ih

theorem mem_erase {α : Type u} {l : List (Nat × α)} {k : Nat} {p : Nat × α}
    (h : p ∈ erase l k) : p ∈ l := by
  induction l with
  | nil => exact h
  | cons hd t ih =>
    unfold erase at h
    split at h
    · exact List.mem_cons.mpr (Or.inr h)
    · rcases List.mem_cons.mp h with h1 | h1
      · exact List.mem_cons.mpr (Or.inl h1)
      · exact List.mem_cons.mpr (Or.inr (ih h1))

theorem sorted_erase {α : Type u} {l : List (Nat × α)} (k : Nat)
    (h : Sorted l) : Sorted (erase l k) := by
  induction l with
  | nil => exact h
  | cons hd t ih =>
    rcases List.pairwise_cons.mp h with ⟨hhd, ht⟩
    unfold erase
    split
    · exact ht
    · exact List.pairwise_cons.mpr ⟨fun p hp => hhd p (mem_erase hp), ih ht⟩

theorem find?_erase_ne {α : Type u} (l : List (Nat × α)) (k k' : Nat)
    (hs : Sorted l) (hne : k' ≠ k) : find? (erase l k) k' = find? l k' := by
  induction l with
  | nil => rfl
  | cons hd t ih =>
    rcases List.pairwise_cons.mp hs with ⟨hhd, ht⟩
    unfold erase
    split
    · rename_i h1
      subst h1
      simp only [find?, if_neg (Ne.symm hne)]
    · simp only [find?]
      split
      · rfl
      · exact ih ht

theorem length_erase_of_found {α : Type u} (l : List (Nat × α)) (k : Nat)
    {v : α} (h : find? l k = some v) :
    (erase l k).length + 1 = l.length := by
  induction l with
  | nil => exact Option.noConfusion h
  | cons hd t ih =>
    unfold find? at h
    unfold erase
    split
    · simp
    · rename_i h1
      rw [if_neg (fun hh => h1 hh)] at h
      simp only [List.length_cons]
      rw [ih h]

end NMap

/-! ## peer/reliable_receiver.rs -/

/-- `ReliableBody` (`wire/packet.rs`): a 16-bit seqnum together with an
inner body. Inner bodies are abstracted by a type parameter. -/
structure ReliableBody (α : Type u) where
  seqnum : Nat
  inner : α
deriving DecidableEq

/-- `ReliableReceiver` state: `next_seqnum` is the next absolute id in
the reliable stream, `buffer` stores future packets keyed by absolute
id. -/
structure ReliableReceiver (α : Type u) where
  next_seqnum : Nat
  buffer : List (Nat × α)
deriving DecidableEq

namespace ReliableReceiver

def new {α : Type u} : ReliableReceiver α := ⟨SEQNUM_INITIAL, []⟩

/-- `ReliableReceiver::push`. -/
def push {α : Type u} (st : ReliableReceiver α) (body : ReliableBody α) :
    ReliableReceiver α :=
  let seqnum := rel_to_abs st.next_seqnum body.seqnum
  if seqnum < st.next_seqnum then st
  else { st with buffer := NMap.entryOrInsert st.buffer seqnum body.inner }

/-- `ReliableReceiver::pop`. The buffer's `first_key_value` is the head
of the sorted list; `pop_first` removes it. -/
def pop {α : Type u} (st : ReliableReceiver α) : Option α × ReliableReceiver α :=
  match st.buffer with
  | (seqnum, v) :: rest =>
    if seqnum = st.next_seqnum then
      (some v, { next_seqnum := st.next_seqnum + 1, buffer := rest })
    else (none, st)
  | [] => (none, st)

/-- Calling `pop` "until exhaustion" (fuelled by the buffer size; `pop`
removes one entry whenever it yields a body). -/
def popAllF {α : Type u} : Nat → ReliableReceiver α → List α × ReliableReceiver α
  | 0, st => ([], st)
  | fuel + 1, st =>
    match pop st with
    | (some v, st') =>
      let r := popAllF fuel st'
      (v :: r.1, r.2)
    | (none, _) => ([], st)

def popAll {α : Type u} (st : ReliableReceiver α) : List α × ReliableReceiver α :=
  popAllF st.buffer.length st

/-- Structural invariant of the receiver: the buffer is sorted and every
buffered key is at least `next_seqnum`. -/
def Inv {α : Type u} (st : ReliableReceiver α) : Prop :=
  NMap.Sorted st.buffer ∧ ∀ p ∈ st.buffer, st.next_seqnum ≤ p.1

instance {α : Type u} [DecidableEq α] (st : ReliableReceiver α) :
    Decidable (Inv st) := by
  unfold Inv NMap.Sorted
  infer_instance

/-- States of a `ReliableReceiver` reachable by any sequence of pushes
and pops from `new`. -/
inductive Reachable {α : Type u} : ReliableReceiver α → Prop
  | new : Reachable new
  | push (st : ReliableReceiver α) (body : ReliableBody α) :
      Reachable st → Reachable (ReliableReceiver.push st body)
  | pop (st : ReliableReceiver α) : Reachable st → Reachable (ReliableReceiver.pop st).2

theorem inv_new {α : Type u} : Inv (new (α := α)) :=
  ⟨List.Pairwise.nil, by intro p hp; exact absurd hp (List.not_mem_nil p)⟩

theorem inv_push {α : Type u} (st : ReliableReceiver α) (body : ReliableBody α)
    (h : Inv st) : Inv (push st body) := by
  unfold push
  dsimp only
  split
  · exact h
  · rename_i hge
    refine ⟨NMap.sorted_entryOrInsert _ _ h.1, fun p hp => ?_⟩
    have hp' : p ∈ NMap.entryOrInsert st.buffer
        (rel_to_abs st.next_seqnum body.seqnum) body.inner := hp
    show st.next_seqnum ≤ p.1
    rcases NMap.mem_entryOrInsert hp' with h1 | h1
    · exact h.2 p h1
    · have h2 : p.1 = rel_to_abs st.next_seqnum body.seqnum := by rw [h1]
      omega

theorem inv_pop {α : Type u} (st : ReliableReceiver α) (h : Inv st) :
    Inv (pop st).2 := by
  unfold pop
  cases hb : st.buffer with
  | nil => exact h
  | cons hd rest =>
    obtain ⟨k, v⟩ := hd
    have hs := h.1
    rw [hb] at hs
    rcases List.pairwise_cons.mp hs with ⟨hhd, ht⟩
    dsimp only
    split
    · rename_i heq
      refine ⟨ht, fun p hp => ?_⟩
      have hp' : p ∈ rest := hp
      have h2 : k < p.1 := hhd p hp'
      show st.next_seqnum + 1 ≤ p.1
      omega
    · exact h

/-- `pop` characterized through map lookup at `next_seqnum`: under the
invariant, the head of the buffer is its minimal key. -/
theorem pop_spec {α : Type u} (st : ReliableReceiver α) (h : Inv st) :
    pop st = match NMap.find? st.buffer st.next_seqnum with
      | some v => (some v,
          { next_seqnum := st.next_seqnum + 1
            buffer := NMap.erase st.buffer st.next_seqnum })
      | none => (none, st) := by
  have h1 := h.1
  have h2 := h.2
  unfold pop
  cases hb : st.buffer with
  | nil => simp [NMap.find?]
  | cons hd rest =>
    obtain ⟨k, v⟩ := hd
    rw [hb] at h1 h2
    rcases List.pairwise_cons.mp h1 with ⟨hhd, ht⟩
    dsimp only
    by_cases heq : k = st.next_seqnum
    · subst heq
      rw [if_pos rfl]
      have hfind : NMap.find? ((st.next_seqnum, v) :: rest) st.next_seqnum = some v := by
        simp [NMap.find?]
      rw [hfind]
      have herase : NMap.erase ((st.next_seqnum, v) :: rest) st.next_seqnum = rest := by
        simp [NMap.erase]
      rw [herase]
    · rw [if_neg heq]
      have hnone : NMap.find? ((k, v) :: rest) st.next_seqnum = none := by
        refine NMap.find?_eq_none_of_forall_ne _ _ fun p hp => ?_
        rcases List.mem_cons.mp hp with hm | hm
        · rw [hm]; exact heq
        · have h3 : k < p.1 := hhd p hm
          have h4 : st.next_seqnum ≤ k := h2 (k, v) (List.mem_cons_self _ _)
          omega
      rw [hnone]

theorem popAllF_spec {α : Type u} (fuel : Nat) (st : ReliableReceiver α)
    (h : Inv st) (hfuel : st.buffer.length ≤ fuel) :
    (∀ i, i < (popAllF fuel st).1.length →
      NMap.find? st.buffer (st.next_seqnum + i) = (popAllF fuel st).1.get? i) ∧
    NMap.find? st.buffer (st.next_seqnum + (popAllF fuel st).1.length) = none ∧
    (popAllF fuel st).2.next_seqnum = st.next_seqnum + (popAllF fuel st).1.length := by
  induction fuel generalizing st with
  | zero =>
    have hb : st.buffer = [] := List.length_eq_zero.mp (Nat.le_zero.mp hfuel)
    refine ⟨?_, ?_, ?_⟩
    · intro i hi
      simp only [popAllF, List.length_nil] at hi
      exact absurd hi (Nat.not_lt_zero i)
    · simp only [popAllF, List.length_nil, Nat.add_zero]
      rw [hb]; rfl
    · simp only [popAllF, List.length_nil, Nat.add_zero]
  | succ fuel ih =>
    rcases hfind : NMap.find? st.buffer st.next_seqnum with _ | v
    · have hpop : pop st = (none, st) := by rw [pop_spec st h, hfind]
      unfold popAllF
      rw [hpop]
      refine ⟨?_, ?_, ?_⟩
      · intro i hi
        simp only [List.length_nil] at hi
        exact absurd hi (Nat.not_lt_zero i)
      · simpa using hfind
      · rfl
    · have hpop : pop st = (some v,
          ⟨st.next_seqnum + 1, NMap.erase st.buffer st.next_seqnum⟩) := by
        rw [pop_spec st h, hfind]
      have hinv' : Inv (pop st).2 := inv_pop st h
      rw [hpop] at hinv'
      have hlen : (NMap.erase st.buffer st.next_seqnum).length + 1
          = st.buffer.length := NMap.length_erase_of_found _ _ hfind
      have hfuel' : (NMap.erase st.buffer st.next_seqnum).length ≤ fuel := by
        omega
      have ihx := ih ⟨st.next_seqnum + 1, NMap.erase st.buffer st.next_seqnum⟩
        hinv' hfuel'
      have hA := ihx.1
      have hB := ihx.2.1
      have hC := ihx.2.2
      rw [show (⟨st.next_seqnum + 1, NMap.erase st.buffer st.next_seqnum⟩ :
            ReliableReceiver α).next_seqnum = st.next_seqnum + 1 from rfl] at hB hC
      rw [show (⟨st.next_seqnum + 1, NMap.erase st.buffer st.next_seqnum⟩ :
            ReliableReceiver α).buffer = NMap.erase st.buffer st.next_seqnum
          from rfl] at hB
      unfold popAllF
      rw [hpop]
      dsimp only
      refine ⟨?_, ?_, ?_⟩
      · intro i hi
        cases i with
        | zero => simpa using hfind
        | succ j =>
          simp only [List.length_cons] at hi
          have hj : j < (popAllF fuel
              ⟨st.next_seqnum + 1, NMap.erase st.buffer st.next_seqnum⟩).1.length := by
            omega
          have hstep := hA j hj
          rw [show (⟨st.next_seqnum + 1, NMap.erase st.buffer st.next_seqnum⟩ :
                ReliableReceiver α).next_seqnum = st.next_seqnum + 1 from rfl] at hstep
          rw [show (⟨st.next_seqnum + 1, NMap.erase st.buffer st.next_seqnum⟩ :
                ReliableReceiver α).buffer = NMap.erase st.buffer st.next_seqnum
              from rfl] at hstep
          rw [NMap.find?_erase_ne st.buffer st.next_seqnum (st.next_seqnum + 1 + j)
            h.1 (by omega)] at hstep
          have harith : st.next_seqnum + (j + 1) = st.next_seqnum + 1 + j := by omega
          rw [harith, hstep]
          simp
      · rw [NMap.find?_erase_ne st.buffer st.next_seqnum
            (st.next_seqnum + 1 + (popAllF fuel
              ⟨st.next_seqnum + 1, NMap.erase st.buffer st.next_seqnum⟩).1.length)
            h.1 (by omega)] at hB
        have harith : st.next_seqnum + (v :: (popAllF fuel
            ⟨st.next_seqnum + 1, NMap.erase st.buffer st.next_seqnum⟩).1).length
            = st.next_seqnum + 1 + (popAllF fuel
            ⟨st.next_seqnum + 1, NMap.erase st.buffer st.next_seqnum⟩).1.length := by
          simp only [List.length_cons]
          omega
        rw [harith]
        exact hB
      · simp only [List.length_cons]
        omega

/-- The statement of claim C1 for a receiver state `st`:
duplicates below `next_seqnum` are dropped; an already-buffered id is
not overwritten (first writer wins); `pop` yields the body at
`next_seqnum` (advancing it) or nothing; and draining `pop` returns
exactly the buffered bodies at the consecutive ids
`next_seqnum, next_seqnum+1, ...` up to the first gap. -/
def RecvStreamSpec {α : Type u} (st : ReliableReceiver α) : Prop :=
  (∀ body : ReliableBody α,
    rel_to_abs st.next_seqnum body.seqnum < st.next_seqnum → push st body = st) ∧
  (∀ (body : ReliableBody α) (v₀ : α),
    NMap.find? st.buffer (rel_to_abs st.next_seqnum body.seqnum) = some v₀ →
    NMap.find? (push st body).buffer (rel_to_abs st.next_seqnum body.seqnum) = some v₀) ∧
  (pop st = match NMap.find? st.buffer st.next_seqnum with
    | some v => (some v,
        { next_seqnum := st.next_seqnum + 1
          buffer := NMap.erase st.buffer st.next_seqnum })
    | none => (none, st)) ∧
  (∀ i, i < (popAll st).1.length →
    NMap.find? st.buffer (st.next_seqnum + i) = (popAll st).1.get? i) ∧
  NMap.find? st.buffer (st.next_seqnum + (popAll st).1.length) = none ∧
  (popAll st).2.next_seqnum = st.next_seqnum + (popAll st).1.length

/-- C1: pushes below `next_expected` are dropped, buffered ids are never
overwritten, and repeated `pop` delivers the buffered bodies in strictly
increasing absolute-seqnum order with no gaps, starting at
`next_expected`. -/
theorem reliable_receiver_stream_spec {α : Type u} (st : ReliableReceiver α)
    (h : Inv st) : RecvStreamSpec st := by
  refine ⟨?_, ?_, pop_spec st h, ?_⟩
  · intro body hlt
    unfold push
    dsimp only
    rw [if_pos hlt]
  · intro body v₀ hfound
    unfold push
    dsimp only
    split
    · exact hfound
    · exact NMap.find?_entryOrInsert_found _ h.1 hfound
  · exact popAllF_spec st.buffer.length st h (Nat.le_refl _)

/-- Witness for `reliable_receiver_stream_spec`: a concrete sorted state
holding ids 65500, 65501 and 65503; draining pops exactly the first two
bodies. -/
theorem reliable_receiver_stream_spec_witness :
    Inv (⟨65500, [(65500, 10), (65501, 11), (65503, 13)]⟩ : ReliableReceiver Nat) ∧
    RecvStreamSpec (⟨65500, [(65500, 10), (65501, 11), (65503, 13)]⟩ : ReliableReceiver Nat) ∧
    (popAll (⟨65500, [(65500, 10), (65501, 11), (65503, 13)]⟩ : ReliableReceiver Nat)).1
      = [10, 11] :=
  ⟨by decide,
   reliable_receiver_stream_spec _ (by decide),
   by decide⟩

/-- C8 counterexample: pushing the body with seqnum 65500 into a fresh
receiver buffers it under key 65500 while `next_expected` is still
65500, so the buffered key is not strictly greater than
`next_expected`. -/
theorem reliable_receiver_strict_gt_cex :
    Reachable (push (new (α := Nat)) ⟨65500, 0⟩) ∧
    (push (new (α := Nat)) ⟨65500, 0⟩).buffer = [(65500, 0)] ∧
    (push (new (α := Nat)) ⟨65500, 0⟩).next_seqnum = 65500 ∧
    ¬ (∀ p ∈ (push (new (α := Nat)) ⟨65500, 0⟩).buffer,
        (push (new (α := Nat)) ⟨65500, 0⟩).next_seqnum < p.1) :=
  ⟨Reachable.push _ _ Reachable.new, by decide, by decide, by decide⟩

/-- C8 (amended): at any instant — i.e. in every state reachable by
pushes and pops — every buffered key is at least (`≥`, not `>`)
`next_expected`. -/
theorem reliable_receiver_buffer_keys_ge {α : Type u} (st : ReliableReceiver α)
    (h : Reachable st) : ∀ p ∈ st.buffer, st.next_seqnum ≤ p.1 := by
  have hinv : Inv st := by
    induction h with
    | new => exact inv_new
    | push st body _ ih => exact inv_push st body ih
    | pop st _ ih => exact inv_pop st ih
  exact hinv.2

/-- Witness for `reliable_receiver_buffer_keys_ge` at the reachable
state obtained by pushing seqnum 65500 into a fresh receiver. -/
theorem reliable_receiver_buffer_keys_ge_witness :
    (push (new (α := Nat)) ⟨65500, 0⟩).next_seqnum ≤ (65500, (0 : Nat)).1 :=
  reliable_receiver_buffer_keys_ge _ (Reachable.push _ _ Reachable.new)
    (65500, 0) (by decide)

end ReliableReceiver

/-! ## peer/reliable_sender.rs

The timer set `timeouts: BTreeSet<(Instant, u64)>` is modelled as a
sorted (lexicographically) duplicate-free list of
`(deadline in ms, seqnum)` pairs. -/

/-- Lexicographic order on `(Instant, u64)` pairs, as used by
`BTreeSet<(Instant, u64)>`. -/
def tltLex (x y : Nat × Nat) : Prop :=
  x.1 < y.1 ∨ (x.1 = y.1 ∧ x.2 < y.2)

instance (x y : Nat × Nat) : Decidable (tltLex x y) := by
  unfold tltLex; infer_instance

/-- `BTreeSet::insert` on the sorted pair list. -/
def tinsert : List (Nat × Nat) → Nat × Nat → List (Nat × Nat)
  | [], x => [x]
  | y :: t, x =>
    if tltLex x y then x :: y :: t
    else if x = y then y :: t
    else y :: tinsert t x

/-- The `BTreeSet` representation invariant. -/
def TSorted (l : List (Nat × Nat)) : Prop := l.Pairwise tltLex

theorem mem_tinsert {l : List (Nat × Nat)} {x p : Nat × Nat}
    (h : p ∈ tinsert l x) : p ∈ l ∨ p = x := by
  induction l with
  | nil => simp only [tinsert, List.mem_singleton] at h; exact Or.inr h
  | cons y t ih =>
    unfold tinsert at h
    split at h
    · rcases List.mem_cons.mp h with h1 | h1
      · exact Or.inr h1
      · exact Or.inl h1
    · split at h
      · exact Or.inl h
      · rcases List.mem_cons.mp h with h1 | h1
        · exact Or.inl (List.mem_cons.mpr (Or.inl h1))
        · rcases ih h1 with h2 | h2
          · exact Or.inl (List.mem_cons.mpr (Or.inr h2))
          · exact Or.inr h2

theorem self_mem_tinsert (l : List (Nat × Nat)) (x : Nat × Nat) :
    x ∈ tinsert l x := by
  induction l with
  | nil => simp [tinsert]
  | cons y t ih =>
    unfold tinsert
    split
    · exact List.mem_cons_self _ _
    · split
      · rename_i h1 h2
        rw [h2]; exact List.mem_cons_self _ _
      · exact List.mem_cons.mpr (Or.inr ih)

theorem tltLex_total {x y : Nat × Nat} (h1 : ¬ tltLex x y) (h2 : x ≠ y) :
    tltLex y x := by
  rcases x with ⟨a, b⟩
  rcases y with ⟨c, d⟩
  have h2' : ¬ (a = c ∧ b = d) := fun hcd => h2 (by rw [hcd.1, hcd.2])
  unfold tltLex at h1 ⊢
  dsimp only at h1 ⊢
  omega

theorem sorted_tinsert {l : List (Nat × Nat)} (x : Nat × Nat)
    (h : TSorted l) : TSorted (tinsert l x) := by
  induction l with
  | nil => simp only [tinsert, TSorted, List.pairwise_singleton]
  | cons y t ih =>
    rcases List.pairwise_cons.mp h with ⟨hhd, ht⟩
    unfold tinsert
    split
    · rename_i hlt
      refine List.pairwise_cons.mpr ⟨?_, h⟩
      intro p hp
      rcases List.mem_cons.mp hp with h1 | h1
      · exact h1 ▸ hlt
      · have h2 := hhd p h1
        unfold tltLex at *
        omega
    · split
      · exact h
      · rename_i h1 h2
        refine List.pairwise_cons.mpr ⟨?_, ih ht⟩
        intro p hp
        rcases mem_tinsert hp with h3 | h3
        · exact hhd p h3
        · rw [h3]
          exact tltLex_total h1 h2

/-- `START_RELIABLE_WINDOW_SIZE` (`0x400`). -/
def START_RELIABLE_WINDOW_SIZE : Nat := 1024

/-- `RESEND_TIMEOUT_START_MS`. -/
def RESEND_TIMEOUT_START_MS : Nat := 500

/-- `RESEND_RESOLUTION` (20 ms). -/
def RESEND_RESOLUTION : Nat := 20

/-- `ReliableSender` state. `queued` holds `(absolute seqnum, body)`
pairs not yet sent (a `VecDeque`, front at the head); `buffer` holds
sent but unacknowledged packets; `timeouts` is the retransmit timer
set. Bodies are `ReliableBody` values produced by `into_reliable`
(a 16-bit seqnum plus the abstracted inner body). -/
structure ReliableSender (α : Type u) where
  next_seqnum : Nat
  window_size : Nat
  queued : List (Nat × ReliableBody α)
  buffer : List (Nat × ReliableBody α)
  timeouts : List (Nat × Nat)
  resend_timeout : Nat
deriving DecidableEq

namespace ReliableSender

def new {α : Type u} : ReliableSender α :=
  { next_seqnum := SEQNUM_INITIAL
    window_size := START_RELIABLE_WINDOW_SIZE
    queued := []
    buffer := []
    timeouts := []
    resend_timeout := RESEND_TIMEOUT_START_MS }

/-- `ReliableSender::oldest_unacked` (`buffer.first_key_value`). -/
def oldest_unacked {α : Type u} (st : ReliableSender α) : Option Nat :=
  st.buffer.head?.map Prod.fst

/-- `ReliableSender::process_ack`. -/
def process_ack {α : Type u} (st : ReliableSender α) (ack_seqnum : Nat) :
    ReliableSender α :=
  match oldest_unacked st with
  | none => st
  | some unacked_base =>
    { st with buffer := NMap.erase st.buffer (rel_to_abs unacked_base ack_seqnum) }

/-- `ReliableSender::push`: assign the next absolute seqnum, wrap the
body via `into_reliable(seqnum as u16)` and append to the queue. -/
def push {α : Type u} (st : ReliableSender α) (body : α) : ReliableSender α :=
  { st with
    next_seqnum := st.next_seqnum + 1
    queued := st.queued ++ [(st.next_seqnum, ⟨st.next_seqnum % 65536, body⟩)] }

/-- `ReliableSender::safe_to_transmit`. -/
def safe_to_transmit {α : Type u} (st : ReliableSender α) (seqnum : Nat) : Bool :=
  match oldest_unacked st with
  | some unacked_seqnum => decide (seqnum < unacked_seqnum + st.window_size)
  | none => true

/-- `ReliableSender::next_timeout`. -/
def next_timeout {α : Type u} (st : ReliableSender α) : Option Nat :=
  st.timeouts.head?.map (fun p => p.1 + RESEND_RESOLUTION)

/-- `ReliableSender::pop_queued`. -/
def pop_queued {α : Type u} (st : ReliableSender α) (now : Nat) :
    Option (ReliableBody α) × ReliableSender α :=
  let safe := match st.queued.head? with
    | some (seqnum, _) => safe_to_transmit st seqnum
    | none => false
  if safe then
    match st.queued with
    | (seqnum, b) :: rest =>
      (some b,
        { st with
          queued := rest
          buffer := NMap.insert st.buffer seqnum b
          timeouts := tinsert st.timeouts (now + st.resend_timeout, seqnum) })
    | [] => (none, st)
  else (none, st)

/-- The `loop` of `ReliableSender::pop_resend`, acting on the timer
list: stale entries (seqnum no longer in `buffer`) are discarded; an
expired live entry is returned and rescheduled at
`now + resend_timeout`; a live entry that has not expired is
re-inserted (the list is unchanged past the dropped prefix). -/
def pop_resend_loop {α : Type u} (buffer : List (Nat × ReliableBody α))
    (resend_timeout now : Nat) :
    List (Nat × Nat) → Option (ReliableBody α) × List (Nat × Nat)
  | [] => (none, [])
  | (expire_time, seqnum) :: rest =>
    match NMap.find? buffer seqnum with
    | none => pop_resend_loop buffer resend_timeout now rest
    | some body =>
      if expire_time ≤ now then
        (some body, tinsert rest (now + resend_timeout, seqnum))
      else
        (none, (expire_time, seqnum) :: rest)

/-- `ReliableSender::pop_resend`. -/
def pop_resend {α : Type u} (st : ReliableSender α) (now : Nat) :
    Option (ReliableBody α) × ReliableSender α :=
  let r := pop_resend_loop st.buffer st.resend_timeout now st.timeouts
  (r.1, { st with timeouts := r.2 })

/-- `ReliableSender::pop`: expired resends are prioritized over new
sends (`pop_resend(now).or_else(|| pop_queued(now))`); the stale-timer
draining done by `pop_resend` persists even when it returns nothing. -/
def pop {α : Type u} (st : ReliableSender α) (now : Nat) :
    Option (ReliableBody α) × ReliableSender α :=
  match (pop_resend st now).1 with
  | some b => (some b, (pop_resend st now).2)
  | none => pop_queued (pop_resend st now).2 now

/-- Calling `pop` repeatedly, at the given sequence of times. -/
def popMany {α : Type u} : ReliableSender α → List Nat →
    List (ReliableBody α) × ReliableSender α
  | st, [] => ([], st)
  | st, now :: rest =>
    match pop st now with
    | (some b, st') =>
      let r := popMany st' rest
      (b :: r.1, r.2)
    | (none, st') => popMany st' rest

/-- Structural invariant: the unacked buffer is a sorted map, the timer
set is lexicographically sorted, and the constants hold their initial
values (nothing in the crate ever changes them). -/
def Inv {α : Type u} (st : ReliableSender α) : Prop :=
  NMap.Sorted st.buffer ∧ TSorted st.timeouts ∧
  st.window_size = START_RELIABLE_WINDOW_SIZE ∧
  st.resend_timeout = RESEND_TIMEOUT_START_MS

instance {α : Type u} [DecidableEq α] (st : ReliableSender α) :
    Decidable (Inv st) := by
  unfold Inv NMap.Sorted TSorted
  infer_instance

/-- States reachable by any interleaving of `push`, `process_ack` and
`pop` from `new`. -/
inductive Reachable {α : Type u} : ReliableSender α → Prop
  | new : Reachable new
  | push (st : ReliableSender α) (body : α) :
      Reachable st → Reachable (ReliableSender.push st body)
  | process_ack (st : ReliableSender α) (ack_seqnum : Nat) :
      Reachable st → Reachable (ReliableSender.process_ack st ack_seqnum)
  | pop (st : ReliableSender α) (now : Nat) :
      Reachable st → Reachable (ReliableSender.pop st now).2

theorem pop_resend_queued {α : Type u} (st : ReliableSender α) (now : Nat) :
    (pop_resend st now).2.queued = st.queued := rfl

theorem pop_resend_buffer {α : Type u} (st : ReliableSender α) (now : Nat) :
    (pop_resend st now).2.buffer = st.buffer := rfl

theorem pop_resend_window {α : Type u} (st : ReliableSender α) (now : Nat) :
    (pop_resend st now).2.window_size = st.window_size := rfl

/-- `pop_queued`, characterized by cases on the queue. -/
theorem pop_queued_eq {α : Type u} (st : ReliableSender α) (now : Nat) :
    pop_queued st now = match st.queued with
      | [] => (none, st)
      | (seqnum, b) :: rest =>
        if safe_to_transmit st seqnum then
          (some b,
            { st with
              queued := rest
              buffer := NMap.insert st.buffer seqnum b
              timeouts := tinsert st.timeouts (now + st.resend_timeout, seqnum) })
        else (none, st) := by
  unfold pop_queued
  cases hq : st.queued with
  | nil => simp
  | cons hd rest =>
    obtain ⟨s, b⟩ := hd
    simp only [List.head?_cons]

/-- When the queue head is outside the send window, `pop` changes
neither the queue, the unacked buffer, nor the window size. -/
theorem pop_blocked {α : Type u} (st : ReliableSender α) (now u s : Nat)
    (b : ReliableBody α) (rest : List (Nat × ReliableBody α))
    (hq : st.queued = (s, b) :: rest) (ho : oldest_unacked st = some u)
    (hw : ¬ s < u + st.window_size) :
    (pop st now).2.queued = st.queued ∧ (pop st now).2.buffer = st.buffer ∧
    (pop st now).2.window_size = st.window_size ∧
    (pop st now).2.oldest_unacked = some u := by
  have hsafe : safe_to_transmit (pop_resend st now).2 s = false := by
    unfold safe_to_transmit
    have ho' : oldest_unacked (pop_resend st now).2 = some u := ho
    rw [ho']
    exact decide_eq_false hw
  unfold pop
  cases hro : (pop_resend st now).1 with
  | some b' =>
    exact ⟨rfl, rfl, rfl, ho⟩
  | none =>
    have hq' : (pop_resend st now).2.queued = (s, b) :: rest := hq
    rw [pop_queued_eq, hq']
    dsimp only
    rw [if_neg (by simp [hsafe])]
    exact ⟨rfl, rfl, rfl, ho⟩

theorem tsorted_dropWhile (p : Nat × Nat → Bool) {l : List (Nat × Nat)}
    (h : TSorted l) : TSorted (l.dropWhile p) := by
  induction l with
  | nil => exact h
  | cons hd t ih =>
    rcases List.pairwise_cons.mp h with ⟨hhd, ht⟩
    rw [List.dropWhile_cons]
    split
    · exact ih ht
    · exact h

/-- Draining the timer loop and returning a retransmit: the dropped
prefix is exactly the stale prefix, the entry retransmitted is the
first live one, it has expired, and it is rescheduled. -/
theorem pop_resend_loop_some {α : Type u} (buffer : List (Nat × ReliableBody α))
    (rt now : Nat) (ts : List (Nat × Nat)) (b : ReliableBody α)
    (ts' : List (Nat × Nat))
    (h : pop_resend_loop buffer rt now ts = (some b, ts')) :
    ∃ t s rest,
      ts.dropWhile (fun p => (NMap.find? buffer p.2).isNone) = (t, s) :: rest ∧
      t ≤ now ∧ NMap.find? buffer s = some b ∧
      ts' = tinsert rest (now + rt, s) := by
  induction ts with
  | nil =>
    exact absurd h (by simp [pop_resend_loop])
  | cons hd rest0 ih =>
    obtain ⟨t0, s0⟩ := hd
    unfold pop_resend_loop at h
    cases hf : NMap.find? buffer s0 with
    | none =>
      rw [hf] at h
      dsimp only at h
      rcases ih h with ⟨t, s, rest, h1, h2, h3, h4⟩
      refine ⟨t, s, rest, ?_, h2, h3, h4⟩
      rw [List.dropWhile_cons, if_pos (by simp [hf]), h1]
    | some body =>
      rw [hf] at h
      dsimp only at h
      by_cases hle : t0 ≤ now
      · rw [if_pos hle] at h
        rw [Prod.mk.injEq] at h
        obtain ⟨hb, hts⟩ := h
        refine ⟨t0, s0, rest0, ?_, hle, ?_, hts.symm⟩
        · rw [List.dropWhile_cons, if_neg (by simp [hf])]
        · rw [hf, hb]
      · rw [if_neg hle] at h
        exact absurd h (by simp)

/-- Draining the timer loop without retransmitting: stale timers were
removed, and either no timer remains or the first live timer has not
expired. -/
theorem pop_resend_loop_none {α : Type u} (buffer : List (Nat × ReliableBody α))
    (rt now : Nat) (ts : List (Nat × Nat)) (ts' : List (Nat × Nat))
    (h : pop_resend_loop buffer rt now ts = (none, ts')) :
    ts' = ts.dropWhile (fun p => (NMap.find? buffer p.2).isNone) ∧
    (ts' = [] ∨ ∃ t s rest, ts' = (t, s) :: rest ∧ now < t ∧
      (NMap.find? buffer s).isSome) := by
  induction ts with
  | nil =>
    unfold pop_resend_loop at h
    rw [Prod.mk.injEq] at h
    exact ⟨h.2.symm, Or.inl h.2.symm⟩
  | cons hd rest0 ih =>
    obtain ⟨t0, s0⟩ := hd
    unfold pop_resend_loop at h
    cases hf : NMap.find? buffer s0 with
    | none =>
      rw [hf] at h
      dsimp only at h
      rcases ih h with ⟨h1, h2⟩
      refine ⟨?_, h2⟩
      rw [List.dropWhile_cons, if_pos (by simp [hf])]
      exact h1
    | some body =>
      rw [hf] at h
      dsimp only at h
      by_cases hle : t0 ≤ now
      · rw [if_pos hle] at h
        exact absurd h (by simp)
      · rw [if_neg hle] at h
        rw [Prod.mk.injEq] at h
        refine ⟨?_, Or.inr ⟨t0, s0, rest0, h.2.symm, by omega, by rw [hf]; rfl⟩⟩
        rw [List.dropWhile_cons, if_neg (by simp [hf])]
        exact h.2.symm

theorem oldest_unacked_eq_none {α : Type u} {st : ReliableSender α}
    (h : oldest_unacked st = none) : st.buffer = [] := by
  unfold oldest_unacked at h
  cases hb : st.buffer with
  | nil => rfl
  | cons hd t => rw [hb] at h; exact absurd h (by simp)

theorem inv_pop_resend {α : Type u} (st : ReliableSender α) (now : Nat)
    (h : Inv st) : Inv (pop_resend st now).2 := by
  obtain ⟨hbuf, hts, hwin, hrt⟩ := h
  refine ⟨hbuf, ?_, hwin, hrt⟩
  show TSorted (pop_resend_loop st.buffer st.resend_timeout now st.timeouts).2
  cases hl : pop_resend_loop st.buffer st.resend_timeout now st.timeouts with
  | mk o ts' =>
    cases o with
    | some b =>
      rcases pop_resend_loop_some _ _ _ _ _ _ hl with ⟨t, s, rest, hdw, _, _, h4⟩
      rw [h4]
      refine sorted_tinsert _ ?_
      have hsorted : TSorted ((t, s) :: rest) := by
        rw [← hdw]
        exact tsorted_dropWhile _ hts
      exact (List.pairwise_cons.mp hsorted).2
    | none =>
      rcases pop_resend_loop_none _ _ _ _ _ hl with ⟨h1, _⟩
      rw [h1]
      exact tsorted_dropWhile _ hts

theorem inv_pop_queued {α : Type u} (st : ReliableSender α) (now : Nat)
    (h : Inv st) : Inv (pop_queued st now).2 := by
  obtain ⟨hbuf, hts, hwin, hrt⟩ := h
  rw [pop_queued_eq]
  cases st.queued with
  | nil => exact ⟨hbuf, hts, hwin, hrt⟩
  | cons hd rest =>
    obtain ⟨s, b⟩ := hd
    dsimp only
    split
    · exact ⟨NMap.sorted_insert _ _ hbuf, sorted_tinsert _ hts, hwin, hrt⟩
    · exact ⟨hbuf, hts, hwin, hrt⟩

theorem inv_pop_sender {α : Type u} (st : ReliableSender α) (now : Nat)
    (h : Inv st) : Inv (pop st now).2 := by
  have h2 := inv_pop_resend st now h
  unfold pop
  cases (pop_resend st now).1 with
  | some b => exact h2
  | none => exact inv_pop_queued _ now h2

theorem inv_of_reachable {α : Type u} {st : ReliableSender α}
    (h : Reachable st) : Inv st := by
  induction h with
  | new => exact ⟨List.Pairwise.nil, List.Pairwise.nil, rfl, rfl⟩
  | push st body _ ih => exact ⟨ih.1, ih.2.1, ih.2.2.1, ih.2.2.2⟩
  | process_ack st ack _ ih =>
    unfold process_ack
    cases oldest_unacked st with
    | none => exact ih
    | some base => exact ⟨NMap.sorted_erase _ ih.1, ih.2.1, ih.2.2.1, ih.2.2.2⟩
  | pop st now _ ih => exact inv_pop_sender st now ih

theorem pop_window_size {α : Type u} (st : ReliableSender α) (now : Nat) :
    (pop st now).2.window_size = st.window_size := by
  have := inv_pop_sender (α := α)
  unfold pop
  cases (pop_resend st now).1 with
  | some b => rfl
  | none =>
    rw [pop_queued_eq]
    cases (pop_resend st now).2.queued with
    | nil => rfl
    | cons hd rest =>
      obtain ⟨s, b⟩ := hd
      dsimp only
      split
      · rfl
      · rfl

/-- C3: a queued (never-before-sent) body is emitted by `pop` only when
its absolute seqnum is inside the send window
(`seqnum < oldest_unacked + window_size`) or nothing is in flight; with
the window closed to the queue head, any number of `pop` calls leaves
the queue and the in-flight buffer untouched; and every reachable state
has window size 1024. -/
theorem reliable_sender_window_limit {α : Type u} :
    (∀ (st : ReliableSender α) (now s : Nat) (b : ReliableBody α)
        (rest : List (Nat × ReliableBody α)),
      st.queued = (s, b) :: rest →
      (ReliableSender.pop st now).2.queued ≠ st.queued →
      st.buffer = [] ∨
        ∃ u, ReliableSender.oldest_unacked st = some u ∧ s < u + st.window_size) ∧
    (∀ (st : ReliableSender α) (nows : List Nat) (u s : Nat)
        (b : ReliableBody α) (rest : List (Nat × ReliableBody α)),
      st.queued = (s, b) :: rest →
      ReliableSender.oldest_unacked st = some u →
      ¬ s < u + st.window_size →
      (ReliableSender.popMany st nows).2.queued = st.queued ∧
      (ReliableSender.popMany st nows).2.buffer = st.buffer) ∧
    (∀ st : ReliableSender α, ReliableSender.Reachable st →
      st.window_size = START_RELIABLE_WINDOW_SIZE) := by
  refine ⟨?_, ?_, ?_⟩
  · intro st now s b rest hq hch
    unfold ReliableSender.pop at hch
    cases hro : (ReliableSender.pop_resend st now).1 with
    | some b0 =>
      rw [hro] at hch
      exact absurd rfl hch
    | none =>
      rw [hro] at hch
      dsimp only at hch
      rw [ReliableSender.pop_queued_eq] at hch
      have hq' : (ReliableSender.pop_resend st now).2.queued = (s, b) :: rest := hq
      rw [hq'] at hch
      dsimp only at hch
      by_cases hsafe : ReliableSender.safe_to_transmit
          (ReliableSender.pop_resend st now).2 s
      · have hsafe' : ReliableSender.safe_to_transmit st s = true := hsafe
        unfold ReliableSender.safe_to_transmit at hsafe'
        cases hold : ReliableSender.oldest_unacked st with
        | none => exact Or.inl (ReliableSender.oldest_unacked_eq_none hold)
        | some u =>
          rw [hold] at hsafe'
          exact Or.inr ⟨u, rfl, of_decide_eq_true hsafe'⟩
      · rw [if_neg hsafe] at hch
        exact absurd rfl hch
  · intro st nows
    induction nows generalizing st with
    | nil => exact fun _ _ _ _ _ _ _ => ⟨rfl, rfl⟩
    | cons now rest' ih =>
      intro u s b rest hq ho hw
      have hb := ReliableSender.pop_blocked st now u s b rest hq ho hw
      unfold ReliableSender.popMany
      cases hpop : ReliableSender.pop st now with
      | mk o st1 =>
        rw [hpop] at hb
        have hq1 : st1.queued = (s, b) :: rest := by rw [hb.1, hq]
        have ho1 : ReliableSender.oldest_unacked st1 = some u := hb.2.2.2
        have hw1 : ¬ s < u + st1.window_size := by rw [hb.2.2.1]; exact hw
        have ihx := ih st1 u s b rest hq1 ho1 hw1
        cases o with
        | some b' =>
          dsimp only
          exact ⟨by rw [ihx.1, hb.1], by rw [ihx.2, hb.2.1]⟩
        | none =>
          dsimp only
          exact ⟨by rw [ihx.1, hb.1], by rw [ihx.2, hb.2.1]⟩
  · intro st h
    induction h with
    | new => rfl
    | push st body _ ih => exact ih
    | process_ack st ack _ ih =>
      unfold ReliableSender.process_ack
      cases ReliableSender.oldest_unacked st with
      | none => exact ih
      | some base => exact ih
    | pop st now _ ih => rw [ReliableSender.pop_window_size]; exact ih

/-- Witness for `reliable_sender_window_limit`: a sender whose window
(1024, starting at in-flight seqnum 65500) excludes the queued seqnum
66524; two further `pop` calls change neither queue nor buffer. -/
theorem reliable_sender_window_limit_witness :
    ({ next_seqnum := 66525, window_size := 1024,
       queued := [(66524, ⟨988, 7⟩)], buffer := [(65500, ⟨65500, 5⟩)],
       timeouts := [], resend_timeout := 500 } : ReliableSender Nat).queued
        = [(66524, ⟨988, 7⟩)] ∧
    ReliableSender.oldest_unacked
      ({ next_seqnum := 66525, window_size := 1024,
         queued := [(66524, ⟨988, 7⟩)], buffer := [(65500, ⟨65500, 5⟩)],
         timeouts := [], resend_timeout := 500 } : ReliableSender Nat) = some 65500 ∧
    ((ReliableSender.popMany
      ({ next_seqnum := 66525, window_size := 1024,
         queued := [(66524, ⟨988, 7⟩)], buffer := [(65500, ⟨65500, 5⟩)],
         timeouts := [], resend_timeout := 500 } : ReliableSender Nat)
      [600, 1200]).2.queued
        = ({ next_seqnum := 66525, window_size := 1024,
             queued := [(66524, ⟨988, 7⟩)], buffer := [(65500, ⟨65500, 5⟩)],
             timeouts := [], resend_timeout := 500 } : ReliableSender Nat).queued ∧
     (ReliableSender.popMany
      ({ next_seqnum := 66525, window_size := 1024,
         queued := [(66524, ⟨988, 7⟩)], buffer := [(65500, ⟨65500, 5⟩)],
         timeouts := [], resend_timeout := 500 } : ReliableSender Nat)
      [600, 1200]).2.buffer
        = ({ next_seqnum := 66525, window_size := 1024,
             queued := [(66524, ⟨988, 7⟩)], buffer := [(65500, ⟨65500, 5⟩)],
             timeouts := [], resend_timeout := 500 } : ReliableSender Nat).buffer) :=
  ⟨by decide, by decide,
   reliable_sender_window_limit.2.1 _ [600, 1200] 65500 66524 ⟨988, 7⟩ []
     (by decide) (by decide) (by decide)⟩

/-- C5: `pop(now)` prefers an expired retransmit over a new send; a
retransmit is emitted only when the earliest live `(deadline, seqnum)`
timer (after silently discarding stale entries for acked seqnums) has
`deadline ≤ now`; every body returned by `pop` gets a fresh timer at
`now + 500 ms`; and `next_timeout()` is the earliest timer deadline
plus the 20 ms resolution, or none without timers. -/
theorem reliable_sender_pop_resend_spec {α : Type u} :
    (∀ (st : ReliableSender α) (now : Nat) (b : ReliableBody α),
      (ReliableSender.pop_resend st now).1 = some b →
      ReliableSender.pop st now = (some b, (ReliableSender.pop_resend st now).2)) ∧
    (∀ (st : ReliableSender α) (now : Nat) (b : ReliableBody α),
      (ReliableSender.pop_resend st now).1 = some b →
      ∃ t s rest,
        st.timeouts.dropWhile (fun p => (NMap.find? st.buffer p.2).isNone)
          = (t, s) :: rest ∧
        t ≤ now ∧ NMap.find? st.buffer s = some b ∧
        (ReliableSender.pop_resend st now).2.timeouts
          = tinsert rest (now + st.resend_timeout, s)) ∧
    (∀ (st : ReliableSender α) (now : Nat),
      (ReliableSender.pop_resend st now).1 = none →
      (ReliableSender.pop_resend st now).2.timeouts
          = st.timeouts.dropWhile (fun p => (NMap.find? st.buffer p.2).isNone) ∧
      ((ReliableSender.pop_resend st now).2.timeouts = [] ∨
        ∃ t s rest,
          (ReliableSender.pop_resend st now).2.timeouts = (t, s) :: rest ∧
          now < t)) ∧
    (∀ (st : ReliableSender α) (now : Nat) (b : ReliableBody α)
        (st' : ReliableSender α),
      ReliableSender.Inv st → ReliableSender.pop st now = (some b, st') →
      ∃ s, (now + RESEND_TIMEOUT_START_MS, s) ∈ st'.timeouts ∧
        NMap.find? st'.buffer s = some b) ∧
    (∀ st : ReliableSender α, ReliableSender.Inv st →
      ReliableSender.next_timeout st
          = st.timeouts.head?.map (fun p => p.1 + RESEND_RESOLUTION) ∧
      ∀ q ∈ st.timeouts, ∀ p, st.timeouts.head? = some p → p.1 ≤ q.1) ∧
    (∀ st : ReliableSender α, ReliableSender.Reachable st →
      ReliableSender.Inv st) := by
  have hloop1 : ∀ (st : ReliableSender α) (now : Nat),
      (ReliableSender.pop_resend st now).1
        = (ReliableSender.pop_resend_loop st.buffer st.resend_timeout now
            st.timeouts).1 := fun _ _ => rfl
  have hloop2 : ∀ (st : ReliableSender α) (now : Nat),
      (ReliableSender.pop_resend st now).2.timeouts
        = (ReliableSender.pop_resend_loop st.buffer st.resend_timeout now
            st.timeouts).2 := fun _ _ => rfl
  refine ⟨?_, ?_, ?_, ?_, ?_, ?_⟩
  · intro st now b h
    unfold ReliableSender.pop
    rw [h]
  · intro st now b h
    rw [hloop1] at h
    cases hl : ReliableSender.pop_resend_loop st.buffer st.resend_timeout now
        st.timeouts with
    | mk o ts' =>
      rw [hl] at h
      dsimp only at h
      subst h
      rcases ReliableSender.pop_resend_loop_some _ _ _ _ _ _ hl with
        ⟨t, s, rest, h1, h2, h3, h4⟩
      exact ⟨t, s, rest, h1, h2, h3, by rw [hloop2, hl, h4]⟩
  · intro st now h
    rw [hloop1] at h
    cases hl : ReliableSender.pop_resend_loop st.buffer st.resend_timeout now
        st.timeouts with
    | mk o ts' =>
      rw [hl] at h
      dsimp only at h
      subst h
      rcases ReliableSender.pop_resend_loop_none _ _ _ _ _ hl with ⟨h1, h2⟩
      rw [hloop2, hl]
      refine ⟨h1, ?_⟩
      rcases h2 with h2 | ⟨t, s, rest, h3, h4, _⟩
      · exact Or.inl h2
      · exact Or.inr ⟨t, s, rest, h3, h4⟩
  · intro st now b st' hinv hpop
    unfold ReliableSender.pop at hpop
    cases hro : (ReliableSender.pop_resend st now).1 with
    | some b0 =>
      rw [hro] at hpop
      dsimp only at hpop
      rw [Prod.mk.injEq] at hpop
      obtain ⟨hb, hst⟩ := hpop
      have hb' : b0 = b := Option.some.inj hb
      subst hb'
      subst hst
      rw [hloop1] at hro
      cases hl : ReliableSender.pop_resend_loop st.buffer st.resend_timeout now
          st.timeouts with
      | mk o ts' =>
        rw [hl] at hro
        dsimp only at hro
        subst hro
        rcases ReliableSender.pop_resend_loop_some _ _ _ _ _ _ hl with
          ⟨t, s, rest, h1, h2, h3, h4⟩
        refine ⟨s, ?_, h3⟩
        rw [hloop2, hl, h4, hinv.2.2.2]
        exact self_mem_tinsert _ _
    | none =>
      rw [hro] at hpop
      dsimp only at hpop
      rw [ReliableSender.pop_queued_eq] at hpop
      cases hq2 : (ReliableSender.pop_resend st now).2.queued with
      | nil =>
        rw [hq2] at hpop
        exact absurd hpop (by simp)
      | cons hd rest =>
        obtain ⟨s0, b0⟩ := hd
        rw [hq2] at hpop
        dsimp only at hpop
        split at hpop
        · rw [Prod.mk.injEq] at hpop
          obtain ⟨hb, hst⟩ := hpop
          have hb' : b0 = b := Option.some.inj hb
          subst hb'
          subst hst
          refine ⟨s0, ?_, ?_⟩
          · have hrt : (ReliableSender.pop_resend st now).2.resend_timeout
                = RESEND_TIMEOUT_START_MS := hinv.2.2.2
            rw [hrt]
            exact self_mem_tinsert _ _
          · have hbuf : NMap.Sorted (ReliableSender.pop_resend st now).2.buffer :=
              hinv.1
            exact NMap.find?_insert_same _ _ _ hbuf
        · exact absurd hpop (by simp)
  · intro st hinv
    refine ⟨rfl, ?_⟩
    intro q hq p hp
    cases hts : st.timeouts with
    | nil => rw [hts] at hp; exact absurd hp (by simp)
    | cons hd t =>
      rw [hts] at hp hq
      have hp' : hd = p := by simpa using hp
      subst hp'
      rcases List.mem_cons.mp hq with h1 | h1
      · rw [h1]
      · have hsorted := hinv.2.1
        rw [hts] at hsorted
        have := (List.pairwise_cons.mp hsorted).1 q h1
        unfold tltLex at this
        omega
  · exact fun st h => ReliableSender.inv_of_reachable h

/-- Witness for `reliable_sender_pop_resend_spec`: a sender with one
expired timer for in-flight seqnum 65500 retransmits it at `now = 600`
and reschedules the timer at 1100. -/
theorem reliable_sender_pop_resend_spec_witness :
    ReliableSender.Inv
      ({ next_seqnum := 65501, window_size := 1024, queued := [],
         buffer := [(65500, ⟨65500, 5⟩)], timeouts := [(500, 65500)],
         resend_timeout := 500 } : ReliableSender Nat) ∧
    ReliableSender.pop
      ({ next_seqnum := 65501, window_size := 1024, queued := [],
         buffer := [(65500, ⟨65500, 5⟩)], timeouts := [(500, 65500)],
         resend_timeout := 500 } : ReliableSender Nat) 600
      = (some ⟨65500, 5⟩,
         { next_seqnum := 65501, window_size := 1024, queued := [],
           buffer := [(65500, ⟨65500, 5⟩)], timeouts := [(1100, 65500)],
           resend_timeout := 500 }) ∧
    (∃ s, (600 + RESEND_TIMEOUT_START_MS, s) ∈
        ({ next_seqnum := 65501, window_size := 1024, queued := [],
           buffer := [(65500, ⟨65500, 5⟩)], timeouts := [(1100, 65500)],
           resend_timeout := 500 } : ReliableSender Nat).timeouts ∧
      NMap.find?
        ({ next_seqnum := 65501, window_size := 1024, queued := [],
           buffer := [(65500, ⟨65500, 5⟩)], timeouts := [(1100, 65500)],
           resend_timeout := 500 } : ReliableSender Nat).buffer s
        = some ⟨65500, 5⟩) :=
  ⟨by decide, by decide,
   reliable_sender_pop_resend_spec.2.2.2.1
     ({ next_seqnum := 65501, window_size := 1024, queued := [],
        buffer := [(65500, ⟨65500, 5⟩)], timeouts := [(500, 65500)],
        resend_timeout := 500 } : ReliableSender Nat) 600 ⟨65500, 5⟩
     ({ next_seqnum := 65501, window_size := 1024, queued := [],
        buffer := [(65500, ⟨65500, 5⟩)], timeouts := [(1100, 65500)],
        resend_timeout := 500 } : ReliableSender Nat)
     (by decide) (by decide)⟩

end ReliableSender

/-! ## peer/split_sender.rs

Commands are abstracted by their serialized byte sequence: the code
first measures `total_size` with a `MockSerializer` (which only counts
bytes) and, when splitting, re-serializes into exactly those
`total_size` bytes, so `push` is a function of the serialized form.
Only the `Original` and `Split` inner-body variants can be produced
here, so the embedding carries just those. -/

/-- `MAX_PACKET_SIZE` (`wire/packet.rs`). -/
def MAX_PACKET_SIZE : Nat := 512

/-- `PACKET_HEADER_SIZE`. -/
def PACKET_HEADER_SIZE : Nat := 7

/-- `RELIABLE_HEADER_SIZE`. -/
def RELIABLE_HEADER_SIZE : Nat := 3

/-- `SPLIT_HEADER_SIZE`. -/
def SPLIT_HEADER_SIZE : Nat := 7

/-- `MAX_ORIGINAL_BODY_SIZE = MAX_PACKET_SIZE - PACKET_HEADER_SIZE -
RELIABLE_HEADER_SIZE`. -/
def MAX_ORIGINAL_BODY_SIZE : Nat :=
  MAX_PACKET_SIZE - PACKET_HEADER_SIZE - RELIABLE_HEADER_SIZE

/-- `MAX_SPLIT_BODY_SIZE = MAX_ORIGINAL_BODY_SIZE - SPLIT_HEADER_SIZE`. -/
def MAX_SPLIT_BODY_SIZE : Nat := MAX_ORIGINAL_BODY_SIZE - SPLIT_HEADER_SIZE

theorem MAX_ORIGINAL_BODY_SIZE_eq : MAX_ORIGINAL_BODY_SIZE = 502 := rfl

theorem MAX_SPLIT_BODY_SIZE_eq : MAX_SPLIT_BODY_SIZE = 495 := rfl

/-- `SplitBody` (`wire/packet.rs`). -/
structure SplitBody (β : Type u) where
  seqnum : Nat
  chunk_count : Nat
  chunk_num : Nat
  chunk_data : List β
deriving DecidableEq

/-- The inner-body variants the split sender can emit: an unsplit
command (`OriginalBody`, represented by its serialized bytes) or one
chunk of a split command. -/
inductive InnerBody (β : Type u) where
  | Original (data : List β)
  | Split (body : SplitBody β)
deriving DecidableEq

namespace SplitSender

/-- The `while offset < total_size` loop of `SplitSender::push`,
emitting one `SplitBody` per `MAX_SPLIT_BODY_SIZE`-byte slice. `rem` is
`data[offset..]`; the fuel argument only bounds the iteration count
(each pass consumes at least one byte). The `total_chunks as u16` and
`index as u16` wrapping casts of the source are the `% 65536`
reductions at the construction site. -/
def splitLoopF {β : Type u} (seqnum total_chunks : Nat) :
    Nat → List β → Nat → List (SplitBody β)
  | _, [], _ => []
  | 0, _ :: _, _ => []
  | fuel + 1, x :: xs, index =>
    { seqnum := seqnum, chunk_count := total_chunks % 65536
      chunk_num := index % 65536
      chunk_data := (x :: xs).take MAX_SPLIT_BODY_SIZE } ::
    splitLoopF seqnum total_chunks fuel ((x :: xs).drop MAX_SPLIT_BODY_SIZE)
      (index + 1)

/-- `SplitSender::push`: `next_seqnum` is the split-send stream state;
`data` is the command's serialization. Returns the emitted inner bodies
and the new `next_seqnum`. -/
def push {β : Type u} (next_seqnum : Nat) (data : List β) :
    List (InnerBody β) × Nat :=
  if data.length ≤ MAX_ORIGINAL_BODY_SIZE then
    ([InnerBody.Original data], next_seqnum)
  else
    let total_size := data.length
    let total_chunks := (total_size + MAX_SPLIT_BODY_SIZE - 1) / MAX_SPLIT_BODY_SIZE
    ((splitLoopF (next_seqnum % 65536) total_chunks total_size data 0).map
        InnerBody.Split,
      next_seqnum + 1)

theorem splitLoopF_length {β : Type u} (s tc : Nat) (fuel : Nat) (rem : List β)
    (idx : Nat) (h : rem.length ≤ fuel) :
    (splitLoopF s tc fuel rem idx).length
      = (rem.length + MAX_SPLIT_BODY_SIZE - 1) / MAX_SPLIT_BODY_SIZE := by
  induction fuel generalizing rem idx with
  | zero =>
    have hb : rem = [] := List.length_eq_zero.mp (Nat.le_zero.mp h)
    subst hb
    simp [splitLoopF, MAX_SPLIT_BODY_SIZE_eq]
  | succ fuel ih =>
    cases rem with
    | nil => simp [splitLoopF, MAX_SPLIT_BODY_SIZE_eq]
    | cons x xs =>
      have hlen : ((x :: xs).drop MAX_SPLIT_BODY_SIZE).length ≤ fuel := by
        rw [List.length_drop, MAX_SPLIT_BODY_SIZE_eq]
        simp only [List.length_cons] at h ⊢
        omega
      rw [splitLoopF, List.length_cons, ih _ _ hlen, List.length_drop]
      rw [MAX_SPLIT_BODY_SIZE_eq]
      simp only [List.length_cons]
      omega

theorem splitLoopF_fields {β : Type u} (s tc : Nat) (fuel : Nat) (rem : List β)
    (idx : Nat) :
    ∀ c ∈ splitLoopF s tc fuel rem idx,
      c.seqnum = s ∧ c.chunk_count = tc % 65536 := by
  induction fuel generalizing rem idx with
  | zero =>
    cases rem with
    | nil => intro c hc; exact absurd hc (List.not_mem_nil c)
    | cons x xs => intro c hc; exact absurd hc (List.not_mem_nil c)
  | succ fuel ih =>
    cases rem with
    | nil => intro c hc; exact absurd hc (List.not_mem_nil c)
    | cons x xs =>
      intro c hc
      rw [splitLoopF] at hc
      rcases List.mem_cons.mp hc with h1 | h1
      · rw [h1]; exact ⟨rfl, rfl⟩
      · exact ih _ _ c h1

theorem splitLoopF_chunk_num {β : Type u} (s tc : Nat) (fuel : Nat)
    (rem : List β) (idx : Nat) :
    (splitLoopF s tc fuel rem idx).map (fun c => c.chunk_num)
      = (List.range' idx (splitLoopF s tc fuel rem idx).length).map
          (fun i => i % 65536) := by
  induction fuel generalizing rem idx with
  | zero =>
    cases rem with
    | nil => rfl
    | cons x xs => rfl
  | succ fuel ih =>
    cases rem with
    | nil => rfl
    | cons x xs =>
      rw [splitLoopF, List.map_cons, List.length_cons, List.range'_succ,
        List.map_cons, ih]

theorem splitLoopF_join {β : Type u} (s tc : Nat) (fuel : Nat) (rem : List β)
    (idx : Nat) (h : rem.length ≤ fuel) :
    ((splitLoopF s tc fuel rem idx).map (fun c => c.chunk_data)).flatten = rem := by
  induction fuel generalizing rem idx with
  | zero =>
    have hb : rem = [] := List.length_eq_zero.mp (Nat.le_zero.mp h)
    subst hb
    rfl
  | succ fuel ih =>
    cases rem with
    | nil => rfl
    | cons x xs =>
      have hlen : ((x :: xs).drop MAX_SPLIT_BODY_SIZE).length ≤ fuel := by
        rw [List.length_drop, MAX_SPLIT_BODY_SIZE_eq]
        simp only [List.length_cons] at h ⊢
        omega
      rw [splitLoopF, List.map_cons, List.flatten_cons, ih _ _ hlen]
      exact List.take_append_drop _ _

end SplitSender

/-- C2 counterexample: the `chunk_count: total_chunks as u16` and
`chunk_num: index as u16` casts wrap. A serialization of `495 * 65536`
bytes is split into 65536 bodies, yet every body carries
`chunk_count = 0` (`65536 % 65536`), not the chunk total the claim
states. -/
theorem split_sender_wrap_cex :
    ((SplitSender.push 65500 (List.replicate (495 * 65536) (0 : Nat))).1).length
      = 65536 ∧
    ((SplitSender.push 65500 (List.replicate (495 * 65536) (0 : Nat))).1.all
      (fun b => match b with
        | InnerBody.Split c => c.chunk_count == 0
        | InnerBody.Original _ => false)) = true := by
  have hnle : ¬ (List.replicate (495 * 65536) (0 : Nat)).length
      ≤ MAX_ORIGINAL_BODY_SIZE := by
    rw [List.length_replicate, MAX_ORIGINAL_BODY_SIZE_eq]
    omega
  constructor
  · unfold SplitSender.push
    rw [if_neg hnle]
    dsimp only
    rw [List.length_map,
      SplitSender.splitLoopF_length _ _ _ _ _ (Nat.le_refl _),
      List.length_replicate, MAX_SPLIT_BODY_SIZE_eq]
  · unfold SplitSender.push
    rw [if_neg hnle]
    dsimp only
    rw [List.all_eq_true]
    intro b hb
    obtain ⟨c, hc, rfl⟩ := List.mem_map.mp hb
    have hf := SplitSender.splitLoopF_fields _ _ _ _ _ c hc
    dsimp only
    rw [hf.2, List.length_replicate, MAX_SPLIT_BODY_SIZE_eq]
    decide

/-- C2 (amended): a command whose serialization fits in
`MAX_ORIGINAL_BODY_SIZE` (502) bytes is emitted as one `Original`
without touching the split-send seqnum; a larger one is emitted as
exactly `⌈N/495⌉` `Split` bodies sharing the current 16-bit split
seqnum, the concatenated `chunk_data` equal to the serialization, and
the split seqnum incremented. The `chunk_count` and `chunk_num` fields
carry the chunk total and the running index reduced modulo 2^16 (the
`as u16` casts); they equal the total and `0..total-1` exactly as the
original claim states whenever the total is below 65536 (see the
counterexample for the wrapped case). -/
theorem split_sender_push_spec {β : Type u} (next_seqnum : Nat) (data : List β) :
    MAX_ORIGINAL_BODY_SIZE = 502 ∧ MAX_SPLIT_BODY_SIZE = 495 ∧
    (data.length ≤ MAX_ORIGINAL_BODY_SIZE →
      SplitSender.push next_seqnum data
        = ([InnerBody.Original data], next_seqnum)) ∧
    (data.length > MAX_ORIGINAL_BODY_SIZE →
      ∃ chunks : List (SplitBody β),
        SplitSender.push next_seqnum data
          = (chunks.map InnerBody.Split, next_seqnum + 1) ∧
        chunks.length
          = (data.length + MAX_SPLIT_BODY_SIZE - 1) / MAX_SPLIT_BODY_SIZE ∧
        data.length ≤ chunks.length * MAX_SPLIT_BODY_SIZE ∧
        (chunks.length - 1) * MAX_SPLIT_BODY_SIZE < data.length ∧
        (∀ c ∈ chunks,
          c.seqnum = next_seqnum % 65536 ∧
          c.chunk_count = chunks.length % 65536) ∧
        chunks.map (fun c => c.chunk_num)
          = (List.range chunks.length).map (fun i => i % 65536) ∧
        (chunks.length < 65536 →
          (∀ c ∈ chunks, c.chunk_count = chunks.length) ∧
          chunks.map (fun c => c.chunk_num) = List.range chunks.length) ∧
        (chunks.map (fun c => c.chunk_data)).flatten = data) := by
  refine ⟨rfl, rfl, ?_, ?_⟩
  · intro hle
    unfold SplitSender.push
    rw [if_pos hle]
  · intro hgt
    have hnle : ¬ data.length ≤ MAX_ORIGINAL_BODY_SIZE := by omega
    refine ⟨SplitSender.splitLoopF (next_seqnum % 65536)
      ((data.length + MAX_SPLIT_BODY_SIZE - 1) / MAX_SPLIT_BODY_SIZE)
      data.length data 0, ?_, ?_, ?_, ?_, ?_, ?_, ?_, ?_⟩
    · unfold SplitSender.push
      rw [if_neg hnle]
    · exact SplitSender.splitLoopF_length _ _ _ _ _ (Nat.le_refl _)
    · rw [SplitSender.splitLoopF_length _ _ _ _ _ (Nat.le_refl _)]
      rw [MAX_SPLIT_BODY_SIZE_eq]
      omega
    · rw [SplitSender.splitLoopF_length _ _ _ _ _ (Nat.le_refl _)]
      rw [MAX_SPLIT_BODY_SIZE_eq]
      rw [MAX_ORIGINAL_BODY_SIZE_eq] at hgt
      omega
    · intro c hc
      have h1 := SplitSender.splitLoopF_fields _ _ _ _ _ c hc
      rw [SplitSender.splitLoopF_length _ _ _ _ _ (Nat.le_refl _)]
      exact h1
    · rw [SplitSender.splitLoopF_chunk_num]
      rw [SplitSender.splitLoopF_length _ _ _ _ _ (Nat.le_refl _)]
      rw [List.range_eq_range']
    · intro hlt
      rw [SplitSender.splitLoopF_length _ _ _ _ _ (Nat.le_refl _)] at hlt
      refine ⟨?_, ?_⟩
      · intro c hc
        have h1 := SplitSender.splitLoopF_fields _ _ _ _ _ c hc
        rw [SplitSender.splitLoopF_length _ _ _ _ _ (Nat.le_refl _)]
        rw [h1.2]
        exact Nat.mod_eq_of_lt hlt
      · rw [SplitSender.splitLoopF_chunk_num]
        rw [SplitSender.splitLoopF_length _ _ _ _ _ (Nat.le_refl _)]
        rw [List.range_eq_range']
        calc (List.range'
                0 ((data.length + MAX_SPLIT_BODY_SIZE - 1) / MAX_SPLIT_BODY_SIZE)).map
                (fun i => i % 65536)
            = (List.range'
                0 ((data.length + MAX_SPLIT_BODY_SIZE - 1) / MAX_SPLIT_BODY_SIZE)).map
                (fun i => i) := by
              apply List.map_congr_left
              intro i hi
              have hi' := List.mem_range'_1.mp hi
              exact Nat.mod_eq_of_lt (by omega)
          _ = List.range'
                0 ((data.length + MAX_SPLIT_BODY_SIZE - 1) / MAX_SPLIT_BODY_SIZE) := by
              simp
    · exact SplitSender.splitLoopF_join _ _ _ _ _ (Nat.le_refl _)

/-- Witness for `split_sender_push_spec`: 502 bytes give one
`Original` (seqnum unchanged), 503 bytes give two `Split`s and bump the
seqnum. -/
theorem split_sender_push_spec_witness :
    SplitSender.push 65500 (List.replicate 502 (0 : Nat))
      = ([InnerBody.Original (List.replicate 502 0)], 65500) ∧
    (SplitSender.push 65500 (List.replicate 503 (0 : Nat))).1.length = 2 ∧
    (SplitSender.push 65500 (List.replicate 503 (0 : Nat))).2 = 65501 := by
  refine ⟨(split_sender_push_spec 65500 (List.replicate 502 (0 : Nat))).2.2.1
    (by rw [List.length_replicate, MAX_ORIGINAL_BODY_SIZE_eq]), ?_, ?_⟩
  · rcases (split_sender_push_spec 65500 (List.replicate 503 (0 : Nat))).2.2.2
        (by rw [List.length_replicate, MAX_ORIGINAL_BODY_SIZE_eq]; omega) with
      ⟨chunks, h1, h2, _⟩
    rw [h1]
    dsimp only
    rw [List.length_map, h2, List.length_replicate]
    decide
  · rcases (split_sender_push_spec 65500 (List.replicate 503 (0 : Nat))).2.2.2
        (by rw [List.length_replicate, MAX_ORIGINAL_BODY_SIZE_eq]; omega) with
      ⟨chunks, h1, _⟩
    rw [h1]

/-! ## peer/split_receiver.rs

`anyhow` errors are modelled by an error enum distinguishing the two
`bail!` sites; `Instant` is milliseconds; the `chunks: BTreeMap` is a
sorted association list and `pending: HashMap` an association list
keyed by the 16-bit split seqnum. -/

/-- `SPLIT_TIMEOUT` (30 s), in ms. -/
def SPLIT_TIMEOUT : Nat := 30000

/-- The two `bail!` errors of `IncomingBuffer::push`. -/
inductive SplitError : Type
  | chunk_count_mismatch
  | chunk_num_out_of_range
deriving DecidableEq

/-- `IncomingBuffer`: one in-progress split assembly. -/
structure IncomingBuffer (β : Type u) where
  chunk_count : Nat
  chunks : List (Nat × List β)
  timeout : Nat
deriving DecidableEq

namespace IncomingBuffer

/-- `IncomingBuffer::new`. -/
def new {β : Type u} (now chunk_count : Nat) : IncomingBuffer β :=
  { chunk_count := chunk_count, chunks := [], timeout := now + SPLIT_TIMEOUT }

/-- `IncomingBuffer::push`: reject a `chunk_count` mismatch or
`chunk_num >= chunk_count`; otherwise refresh the deadline, store the
chunk (overwriting), and report whether the assembly is complete. -/
def push {β : Type u} (buf : IncomingBuffer β) (now : Nat) (body : SplitBody β) :
    Except SplitError (Bool × IncomingBuffer β) :=
  if body.chunk_count ≠ buf.chunk_count then
    Except.error SplitError.chunk_count_mismatch
  else if body.chunk_num ≥ buf.chunk_count then
    Except.error SplitError.chunk_num_out_of_range
  else
    let chunks' := NMap.insert buf.chunks body.chunk_num body.chunk_data
    Except.ok (chunks'.length == buf.chunk_count,
      { chunk_count := buf.chunk_count, chunks := chunks'
        timeout := now + SPLIT_TIMEOUT })

/-- `IncomingBuffer::take`: concatenate the chunks in ascending
`chunk_num` order (the map's iteration order). -/
def take {β : Type u} (buf : IncomingBuffer β) : List β :=
  (buf.chunks.map Prod.snd).flatten

end IncomingBuffer

/-- `SplitReceiver`. -/
structure SplitReceiver (β : Type u) where
  pending : List (Nat × IncomingBuffer β)
deriving DecidableEq

namespace SplitReceiver

def new {β : Type u} : SplitReceiver β := ⟨[]⟩

/-- `SplitReceiver::push`:
`pending.entry(seqnum).or_insert_with(IncomingBuffer::new).push(now, body)?`,
then on completion remove the assembly and `take` it. On error the
or-inserted entry stays behind, unmodified. -/
def push {β : Type u} (st : SplitReceiver β) (now : Nat) (body : SplitBody β) :
    Except SplitError (Option (List β)) × SplitReceiver β :=
  let seqnum := body.seqnum
  let buf0 := match NMap.find? st.pending seqnum with
    | some buf => buf
    | none => IncomingBuffer.new now body.chunk_count
  match buf0.push now body with
  | Except.error e => (Except.error e, ⟨NMap.insert st.pending seqnum buf0⟩)
  | Except.ok (should_take, buf') =>
    if should_take then
      (Except.ok (some buf'.take), ⟨NMap.erase st.pending seqnum⟩)
    else
      (Except.ok none, ⟨NMap.insert st.pending seqnum buf'⟩)

/-- The `chunk_count` recorded for this body's seqnum: the in-progress
assembly's if one exists, otherwise the freshly or-inserted one's
(which copies the body's). -/
def recorded {β : Type u} (st : SplitReceiver β) (body : SplitBody β) : Nat :=
  match NMap.find? st.pending body.seqnum with
  | some buf => buf.chunk_count
  | none => body.chunk_count

/-- The chunk map this push acts on. -/
def pendingChunks {β : Type u} (st : SplitReceiver β) (body : SplitBody β) :
    List (Nat × List β) :=
  match NMap.find? st.pending body.seqnum with
  | some buf => buf.chunks
  | none => []

/-- Model invariant: `pending` and every assembly's chunk map are
sorted association lists. -/
def Inv {β : Type u} (st : SplitReceiver β) : Prop :=
  NMap.Sorted st.pending ∧ ∀ p ∈ st.pending, NMap.Sorted p.2.chunks

instance {β : Type u} [DecidableEq β] (st : SplitReceiver β) :
    Decidable (Inv st) := by
  unfold Inv NMap.Sorted
  infer_instance

/-- The statement of claim C6 for one `push`: a hard error exactly on a
`chunk_count` mismatch with the recorded assembly or on
`chunk_num >= chunk_count`; otherwise the chunk is stored (overwriting)
with the deadline reset to `now + 30 s`, and an assembled payload — the
chunks concatenated in ascending `chunk_num` order — is returned exactly
when the assembly then holds `chunk_count` distinct chunk numbers. -/
def PushSpec {β : Type u} (st : SplitReceiver β) (now : Nat)
    (body : SplitBody β) : Prop :=
  ((∃ e, (push st now body).1 = Except.error e) ↔
    (body.chunk_count ≠ recorded st body ∨ recorded st body ≤ body.chunk_num)) ∧
  ((push st now body).1 = Except.error SplitError.chunk_count_mismatch ↔
    body.chunk_count ≠ recorded st body) ∧
  (∀ st', push st now body = (Except.ok none, st') →
    ∃ buf', NMap.find? st'.pending body.seqnum = some buf' ∧
      NMap.find? buf'.chunks body.chunk_num = some body.chunk_data ∧
      buf'.timeout = now + SPLIT_TIMEOUT ∧
      buf'.chunk_count = recorded st body ∧
      buf'.chunks.length ≠ buf'.chunk_count) ∧
  (∀ payload st', push st now body = (Except.ok (some payload), st') →
    NMap.Sorted (NMap.insert (pendingChunks st body) body.chunk_num body.chunk_data) ∧
    (NMap.insert (pendingChunks st body) body.chunk_num body.chunk_data).length
      = recorded st body ∧
    payload = ((NMap.insert (pendingChunks st body) body.chunk_num
      body.chunk_data).map Prod.snd).flatten ∧
    NMap.find? st'.pending body.seqnum = none)

end SplitReceiver

namespace NMap

theorem mem_of_find? {α : Type u} {l : List (Nat × α)} {k : Nat} {v : α}
    (h : find? l k = some v) : (k, v) ∈ l := by
  induction l with
  | nil => exact Option.noConfusion h
  | cons hd t ih =>
    unfold find? at h
    split at h
    · rename_i heq
      have hv : hd.2 = v := Option.some.inj h
      have : hd = (k, v) := by
        rcases hd with ⟨a, b⟩
        simp only at heq hv
        rw [heq, hv]
      rw [← this]
      exact List.mem_cons_self _ _
    · exact List.mem_cons.mpr (Or.inr (ih h))

theorem find?_erase_same {α : Type u} (l : List (Nat × α)) (k : Nat)
    (hs : Sorted l) : find? (erase l k) k = none := by
  induction l with
  | nil => rfl
  | cons hd t ih =>
    rcases List.pairwise_cons.mp hs with ⟨hhd, ht⟩
    unfold erase
    split
    · rename_i heq
      refine find?_eq_none_of_forall_ne _ _ fun p hp => ?_
      have := hhd p hp
      omega
    · rename_i hne
      simp only [find?, if_neg hne]
      exact ih ht

end NMap

namespace SplitReceiver

/-- `SplitReceiver::push` in terms of the or-inserted buffer. -/
theorem push_eq_of_find {β : Type u} (st : SplitReceiver β) (now : Nat)
    (body : SplitBody β) (buf0 : IncomingBuffer β)
    (h : (match NMap.find? st.pending body.seqnum with
          | some buf => buf
          | none => IncomingBuffer.new now body.chunk_count) = buf0) :
    push st now body =
      match IncomingBuffer.push buf0 now body with
      | Except.error e =>
        (Except.error e, ⟨NMap.insert st.pending body.seqnum buf0⟩)
      | Except.ok (should_take, buf') =>
        if should_take then
          (Except.ok (some buf'.take), ⟨NMap.erase st.pending body.seqnum⟩)
        else
          (Except.ok none, ⟨NMap.insert st.pending body.seqnum buf'⟩) := by
  unfold push
  dsimp only
  rw [h]

theorem push_spec_aux {β : Type u} (st : SplitReceiver β) (now : Nat)
    (body : SplitBody β) (buf0 : IncomingBuffer β)
    (hb : (match NMap.find? st.pending body.seqnum with
           | some buf => buf
           | none => IncomingBuffer.new now body.chunk_count) = buf0)
    (hrc : buf0.chunk_count = recorded st body)
    (hch : buf0.chunks = pendingChunks st body)
    (hs : NMap.Sorted buf0.chunks)
    (hps : NMap.Sorted st.pending) :
    PushSpec st now body := by
  have hpush := push_eq_of_find st now body buf0 hb
  by_cases hc1 : body.chunk_count ≠ buf0.chunk_count
  · have hpe : IncomingBuffer.push buf0 now body
        = Except.error SplitError.chunk_count_mismatch := by
      unfold IncomingBuffer.push
      rw [if_pos hc1]
    rw [hpe] at hpush
    refine ⟨⟨fun _ => Or.inl (hrc ▸ hc1), fun _ => ⟨_, by rw [hpush]⟩⟩,
      ⟨fun _ => hrc ▸ hc1, fun _ => by rw [hpush]⟩, ?_, ?_⟩
    · intro st' h
      rw [hpush] at h
      exact absurd h (by simp)
    · intro payload st' h
      rw [hpush] at h
      exact absurd h (by simp)
  · by_cases hc2 : body.chunk_num ≥ buf0.chunk_count
    · have hpe : IncomingBuffer.push buf0 now body
          = Except.error SplitError.chunk_num_out_of_range := by
        unfold IncomingBuffer.push
        rw [if_neg hc1, if_pos hc2]
      rw [hpe] at hpush
      have hccr : body.chunk_count = recorded st body := by
        rw [← hrc]
        exact not_ne_iff.mp hc1
      refine ⟨⟨fun _ => Or.inr ?_, fun _ => ⟨_, by rw [hpush]⟩⟩, ⟨?_, ?_⟩, ?_, ?_⟩
      · rw [← hrc]; exact hc2
      · intro h
        rw [hpush] at h
        exact absurd h (by simp)
      · intro h
        exact absurd hccr h
      · intro st' h
        rw [hpush] at h
        exact absurd h (by simp)
      · intro payload st' h
        rw [hpush] at h
        exact absurd h (by simp)
    · have hpe : IncomingBuffer.push buf0 now body
          = Except.ok ((NMap.insert buf0.chunks body.chunk_num
              body.chunk_data).length == buf0.chunk_count,
            { chunk_count := buf0.chunk_count
              chunks := NMap.insert buf0.chunks body.chunk_num body.chunk_data
              timeout := now + SPLIT_TIMEOUT }) := by
        unfold IncomingBuffer.push
        rw [if_neg hc1, if_neg hc2]
      rw [hpe] at hpush
      dsimp only at hpush
      have hccr : body.chunk_count = recorded st body := by
        rw [← hrc]
        exact not_ne_iff.mp hc1
      have hnoerr : ¬ (body.chunk_count ≠ recorded st body ∨
          recorded st body ≤ body.chunk_num) := by
        rw [← hrc]
        push_neg
        exact ⟨not_ne_iff.mp hc1, by omega⟩
      by_cases hlen : (NMap.insert buf0.chunks body.chunk_num
          body.chunk_data).length = buf0.chunk_count
      · have hbeq : ((NMap.insert buf0.chunks body.chunk_num
            body.chunk_data).length == buf0.chunk_count) = true := by
          rw [hlen]
          exact beq_self_eq_true _
        rw [if_pos hbeq] at hpush
        refine ⟨⟨?_, fun h => absurd h hnoerr⟩, ⟨?_, ?_⟩, ?_, ?_⟩
        · rintro ⟨e, he⟩
          rw [hpush] at he
          exact absurd he (by simp)
        · intro h
          rw [hpush] at h
          exact absurd h (by simp)
        · intro h
          exact absurd hccr h
        · intro st' h
          rw [hpush] at h
          exact absurd h (by simp)
        · intro payload st' h
          rw [hpush] at h
          rw [Prod.mk.injEq] at h
          obtain ⟨h1, h2⟩ := h
          have hpay : (IncomingBuffer.take
              { chunk_count := buf0.chunk_count
                chunks := NMap.insert buf0.chunks body.chunk_num body.chunk_data
                timeout := now + SPLIT_TIMEOUT } : List β) = payload := by
            have := Except.ok.inj h1
            exact Option.some.inj this
          refine ⟨?_, ?_, ?_, ?_⟩
          · rw [← hch]
            exact NMap.sorted_insert _ _ hs
          · rw [← hch, hlen, hrc]
          · rw [← hpay, ← hch]
            rfl
          · rw [← h2]
            exact NMap.find?_erase_same _ _ hps
      · have hbeq : ((NMap.insert buf0.chunks body.chunk_num
            body.chunk_data).length == buf0.chunk_count) = false :=
          beq_eq_false_iff_ne.mpr hlen
        rw [if_neg (by rw [hbeq]; exact Bool.false_ne_true)] at hpush
        refine ⟨⟨?_, fun h => absurd h hnoerr⟩, ⟨?_, ?_⟩, ?_, ?_⟩
        · rintro ⟨e, he⟩
          rw [hpush] at he
          exact absurd he (by simp)
        · intro h
          rw [hpush] at h
          exact absurd h (by simp)
        · intro h
          exact absurd hccr h
        · intro st' h
          rw [hpush] at h
          rw [Prod.mk.injEq] at h
          obtain ⟨_, h2⟩ := h
          refine ⟨{ chunk_count := buf0.chunk_count
                    chunks := NMap.insert buf0.chunks body.chunk_num body.chunk_data
                    timeout := now + SPLIT_TIMEOUT }, ?_, ?_, rfl, hrc, ?_⟩
          · rw [← h2]
            exact NMap.find?_insert_same _ _ _ hps
          · exact NMap.find?_insert_same _ _ _ hs
          · exact hlen
        · intro payload st' h
          rw [hpush] at h
          exact absurd h (by simp)

end SplitReceiver

/-- C6: a split push errors exactly on a `chunk_count` mismatch with
the recorded assembly or on `chunk_num >= chunk_count`; otherwise the
chunk is stored (overwriting any prior copy), the deadline is reset to
`now + 30 s`, and the assembled payload — the chunks concatenated in
ascending `chunk_num` order — is returned exactly when the assembly
then holds `chunk_count` distinct chunk numbers. -/
theorem split_receiver_push_spec {β : Type u} (st : SplitReceiver β) (now : Nat)
    (body : SplitBody β) (hinv : SplitReceiver.Inv st) :
    SplitReceiver.PushSpec st now body := by
  cases hfind : NMap.find? st.pending body.seqnum with
  | none =>
    refine SplitReceiver.push_spec_aux st now body
      (IncomingBuffer.new now body.chunk_count) ?_ ?_ ?_ ?_ hinv.1
    · rw [hfind]
    · unfold SplitReceiver.recorded
      rw [hfind]
      rfl
    · unfold SplitReceiver.pendingChunks
      rw [hfind]
      rfl
    · exact List.Pairwise.nil
  | some buf =>
    refine SplitReceiver.push_spec_aux st now body buf ?_ ?_ ?_ ?_ hinv.1
    · rw [hfind]
    · unfold SplitReceiver.recorded
      rw [hfind]
    · unfold SplitReceiver.pendingChunks
      rw [hfind]
    · exact hinv.2 _ (NMap.mem_of_find? hfind)

/-- Witness for `split_receiver_push_spec`: pushing chunk 0 of 2 into a
fresh receiver. -/
theorem split_receiver_push_spec_witness :
    SplitReceiver.Inv (SplitReceiver.new (β := Nat)) ∧
    SplitReceiver.PushSpec (SplitReceiver.new (β := Nat)) 5 ⟨7, 2, 0, [1, 2]⟩ :=
  ⟨⟨List.Pairwise.nil, fun p hp => absurd hp (List.not_mem_nil p)⟩,
   split_receiver_push_spec _ 5 _
     ⟨List.Pairwise.nil, fun p hp => absurd hp (List.not_mem_nil p)⟩⟩

/-! ## peer/peer.rs: peer-id assignment in `process_packet`

Only the server-side (`!remote_is_server`) peer-id prefix of
`process_packet` is embedded: it decides whether the packet is dropped
and performs the one-time peer-id assignment. The `rng.gen_range(2..65535)`
draw is supplied as an oracle argument; enqueueing a reliable
`SetPeerId` on channel 0 is modelled by appending the id to a list. -/

/-- `INEXISTENT_PEER_ID_GRACE` (20 s), in ms. -/
def INEXISTENT_PEER_ID_GRACE : Nat := 20000

/-- The parts of `PeerRunner` state that the peer-id check reads or
writes; times are in ms. -/
structure PeerIdState where
  remote_peer_id : Nat
  local_peer_id : Nat
  connect_time : Nat
  now : Nat
  channel0_reliable : List Nat
deriving DecidableEq

/-- The one-time assignment block: on the very first packet (remote id
still 0) the server sets `local_peer_id := 1`, mints the remote id, and
enqueues a reliable `SetPeerId` on channel 0. -/
def assign_peer_id (st : PeerIdState) (minted : Nat) : PeerIdState :=
  if st.remote_peer_id = 0 then
    { st with
      local_peer_id := 1
      remote_peer_id := minted
      channel0_reliable := st.channel0_reliable ++ [minted] }
  else st

/-- The server-side peer-id filtering prefix of
`PeerRunner::process_packet`: returns whether the packet is accepted
(processing continues) and the updated state. -/
def process_packet_peer_check (st : PeerIdState) (minted sender_peer_id : Nat) :
    Bool × PeerIdState :=
  let st := assign_peer_id st minted
  if sender_peer_id = 0 then
    if st.now > st.connect_time + INEXISTENT_PEER_ID_GRACE then (false, st)
    else (true, st)
  else if sender_peer_id ≠ st.remote_peer_id then (false, st)
  else (true, st)

/-- C7 counterexample: the very first packet, carrying
`sender_peer_id = 0` but arriving after the 20 s grace window
(`connect_time = 0`, `now = 20001 ms`), is dropped — but not without
state change: the peer id is still minted, `local_peer_id` is set, and
a `SetPeerId` is enqueued. -/
theorem peer_id_grace_cex :
    process_packet_peer_check ⟨0, 0, 0, 20001, []⟩ 2 0
      = (false, ⟨2, 1, 0, 20001, [2]⟩) ∧
    (process_packet_peer_check ⟨0, 0, 0, 20001, []⟩ 2 0).2
      ≠ (⟨0, 0, 0, 20001, []⟩ : PeerIdState) :=
  ⟨by decide, by decide⟩

/-- The statement of the (amended) claim C7 for one incoming packet:
if the remote id is unassigned, the packet triggers the assignment
(minted id in `[2, 65535)`, `local_peer_id := 1`, `SetPeerId`
enqueued on channel 0) regardless of anything else; a
`sender_peer_id = 0` packet is accepted within 20 s of connect and
dropped afterwards (without state change only when the remote id was
already assigned); and a packet whose sender id is neither 0 nor the
assigned remote id is dropped. -/
def PeerCheckSpec (st : PeerIdState) (minted sender : Nat) : Prop :=
  (st.remote_peer_id = 0 →
    (process_packet_peer_check st minted sender).2.remote_peer_id = minted ∧
    2 ≤ (process_packet_peer_check st minted sender).2.remote_peer_id ∧
    (process_packet_peer_check st minted sender).2.remote_peer_id < 65535 ∧
    (process_packet_peer_check st minted sender).2.local_peer_id = 1 ∧
    (process_packet_peer_check st minted sender).2.channel0_reliable
      = st.channel0_reliable ++ [minted]) ∧
  (sender = 0 → st.now ≤ st.connect_time + INEXISTENT_PEER_ID_GRACE →
    (process_packet_peer_check st minted sender).1 = true) ∧
  (sender = 0 → st.now > st.connect_time + INEXISTENT_PEER_ID_GRACE →
    (process_packet_peer_check st minted sender).1 = false ∧
    (st.remote_peer_id ≠ 0 →
      (process_packet_peer_check st minted sender).2 = st)) ∧
  (sender ≠ 0 →
    sender ≠ (process_packet_peer_check st minted sender).2.remote_peer_id →
    (process_packet_peer_check st minted sender).1 = false ∧
    (st.remote_peer_id ≠ 0 →
      (process_packet_peer_check st minted sender).2 = st))

/-- C7 (amended): peer-id assignment, the 20 s `sender_peer_id = 0`
grace window, and the sender-id filter, as implemented. -/
theorem process_packet_peer_check_spec (st : PeerIdState) (minted sender : Nat)
    (hm1 : 2 ≤ minted) (hm2 : minted < 65535) :
    PeerCheckSpec st minted sender := by
  have hassign : st.remote_peer_id ≠ 0 → assign_peer_id st minted = st := by
    intro h
    unfold assign_peer_id
    rw [if_neg h]
  have hkeep : (process_packet_peer_check st minted sender).2
      = assign_peer_id st minted := by
    unfold process_packet_peer_check
    dsimp only
    split
    · split
      · rfl
      · rfl
    · split
      · rfl
      · rfl
  refine ⟨?_, ?_, ?_, ?_⟩
  · intro h0
    have ha : assign_peer_id st minted
        = { st with
            local_peer_id := 1
            remote_peer_id := minted
            channel0_reliable := st.channel0_reliable ++ [minted] } := by
      unfold assign_peer_id
      rw [if_pos h0]
    rw [hkeep, ha]
    exact ⟨rfl, hm1, hm2, rfl, rfl⟩
  · intro hs hg
    unfold process_packet_peer_check
    dsimp only
    rw [if_pos hs]
    have hnow : (assign_peer_id st minted).now = st.now := by
      unfold assign_peer_id
      split
      · rfl
      · rfl
    have hct : (assign_peer_id st minted).connect_time = st.connect_time := by
      unfold assign_peer_id
      split
      · rfl
      · rfl
    rw [if_neg (by rw [hnow, hct]; omega)]
  · intro hs hg
    constructor
    · unfold process_packet_peer_check
      dsimp only
      rw [if_pos hs]
      have hnow : (assign_peer_id st minted).now = st.now := by
        unfold assign_peer_id
        split
        · rfl
        · rfl
      have hct : (assign_peer_id st minted).connect_time = st.connect_time := by
        unfold assign_peer_id
        split
        · rfl
        · rfl
      rw [if_pos (by rw [hnow, hct]; omega)]
    · intro hne
      rw [hkeep]
      exact hassign hne
  · intro hs hne
    constructor
    · rw [hkeep] at hne
      unfold process_packet_peer_check
      dsimp only
      rw [if_neg hs, if_pos hne]
    · intro h0
      rw [hkeep]
      exact hassign h0

/-- Witness for `process_packet_peer_check_spec`: a fresh server-side
peer receives its first `sender_peer_id = 0` packet 100 ms after
connect, with the rng drawing id 2. -/
theorem process_packet_peer_check_spec_witness :
    (2 ≤ 2 ∧ 2 < 65535) ∧ PeerCheckSpec ⟨0, 0, 0, 100, []⟩ 2 0 :=
  ⟨⟨by decide, by decide⟩,
   process_packet_peer_check_spec ⟨0, 0, 0, 100, []⟩ 2 0 (by decide) (by decide)⟩

/-! ## wire/util.rs: Minetest json-style string escaping

Bytes are naturals `< 256`. `serializeJsonStringIfNeeded` /
`deSerializeJsonStringIfNeeded` work on byte slices; the deserializers
return the decoded bytes together with the unconsumed remainder
(equivalent to the byte count the Rust code returns). -/

/-- The `HEX_CHARS` table of `to_hex`. -/
def HEX_CHARS : List Nat :=
  [48, 49, 50, 51, 52, 53, 54, 55, 56, 57, 97, 98, 99, 100, 101, 102]

/-- `to_hex` (table lookup; only ever called with `index < 16`). -/
def to_hex (index : Nat) : Nat := HEX_CHARS.getD index 0

/-- `from_hex`. -/
def from_hex (hex_digit : Nat) : Except Unit Nat :=
  if 48 ≤ hex_digit ∧ hex_digit ≤ 57 then Except.ok (hex_digit - 48)
  else if 97 ≤ hex_digit ∧ hex_digit ≤ 102 then Except.ok (10 + (hex_digit - 97))
  else if 65 ≤ hex_digit ∧ hex_digit ≤ 70 then Except.ok (10 + (hex_digit - 65))
  else Except.error ()

/-- The escaping of one input byte inside `serialize_json_string`
(`\u00XX` writes `to_hex (ch >> 4)` and `to_hex (ch & 0xf)`). -/
def json_escape_char (c : Nat) : List Nat :=
  if c = 34 then [92, 34]
  else if c = 92 then [92, 92]
  else if c = 8 then [92, 98]
  else if c = 12 then [92, 102]
  else if c = 10 then [92, 110]
  else if c = 13 then [92, 114]
  else if c = 9 then [92, 116]
  else if 32 ≤ c ∧ c ≤ 126 then [c]
  else [92, 117, 48, 48, to_hex (c / 16), to_hex (c % 16)]

/-- `serialize_json_string`: a quote, the escaped bytes, a quote. -/
def serialize_json_string (input : List Nat) : List Nat :=
  [34] ++ (input.map json_escape_char).flatten ++ [34]

/-- The escape-needed test of `serialize_json_string_if_needed`. -/
def json_needs_escape (c : Nat) : Bool :=
  decide (c ≤ 0x1f) || decide (c ≥ 0x7f) || decide (c = 32) || decide (c = 34)

/-- `serialize_json_string_if_needed`. -/
def serialize_json_string_if_needed (input : List Nat) : List Nat :=
  if input.length = 0 ∨ input.any json_needs_escape then
    serialize_json_string input
  else input

/-- The scanning loop of `deserialize_json_string` (the `MiniReader`
walk): consume until the closing quote, decoding escapes. -/
def djs_loop : List Nat → List Nat → Except Unit (List Nat × List Nat)
  | [], _ => Except.error ()
  | c :: rest, acc =>
    if c = 34 then Except.ok (acc, rest)
    else if c = 92 then
      match rest with
      | [] => Except.error ()
      | code :: rest2 =>
        if code = 98 then djs_loop rest2 (acc ++ [8])
        else if code = 102 then djs_loop rest2 (acc ++ [12])
        else if code = 110 then djs_loop rest2 (acc ++ [10])
        else if code = 114 then djs_loop rest2 (acc ++ [13])
        else if code = 116 then djs_loop rest2 (acc ++ [9])
        else if code = 117 then
          match rest2 with
          | c1 :: c2 :: c3 :: c4 :: rest3 =>
            if c1 ≠ 48 ∨ c2 ≠ 48 then Except.error ()
            else
              match from_hex c3, from_hex c4 with
              | Except.ok hi, Except.ok lo => djs_loop rest3 (acc ++ [hi * 16 + lo])
              | _, _ => Except.error ()
          | _ => Except.error ()
        else djs_loop rest2 (acc ++ [code])
    else djs_loop rest (acc ++ [c])

/-- `deserialize_json_string` (asserts the leading quote). -/
def deserialize_json_string (input : List Nat) : Except Unit (List Nat × List Nat) :=
  match input with
  | 34 :: rest => djs_loop rest []
  | _ => Except.error ()

/-- `deserialize_json_string_if_needed`: a quoted string is unescaped;
otherwise the bytes up to the first space or newline are taken as-is. -/
def deserialize_json_string_if_needed (input : List Nat) :
    Except Unit (List Nat × List Nat) :=
  match input with
  | [] => Except.ok ([], [])
  | c :: _ =>
    if c = 34 then deserialize_json_string input
    else
      Except.ok (input.takeWhile (fun ch => !(ch == 32 || ch == 10)),
        input.dropWhile (fun ch => !(ch == 32 || ch == 10)))

/-! ## wire/types.rs: ItemStackMetadata -/

/-- `DESERIALIZE_START` / `DESERIALIZE_KV_DELIM` /
`DESERIALIZE_PAIR_DELIM` are the bytes `\x01`, `\x02`, `\x03`. -/
def DESERIALIZE_START : Nat := 1

def DESERIALIZE_KV_DELIM : Nat := 2

def DESERIALIZE_PAIR_DELIM : Nat := 3

namespace ItemStackMetadata

/-- `ItemStackMetadata::serialize`: build the delimited buffer, skipping
pairs in which both key and value are empty, then write it as a
json-style string if needed. -/
def serialize (string_vars : List (List Nat × List Nat)) : List Nat :=
  serialize_json_string_if_needed
    ([DESERIALIZE_START] ++
      (string_vars.map (fun p =>
        if p.1 ≠ [] ∨ p.2 ≠ [] then
          p.1 ++ [DESERIALIZE_KV_DELIM] ++ p.2 ++ [DESERIALIZE_PAIR_DELIM]
        else [])).flatten)

/-- `if raw.len() > 0 { raw = &raw[1..] }`: skip the delimiter byte
just split at, if any. -/
def skipDelim (l : List Nat) : List Nat := if l = [] then l else l.tail

/-- The `while raw.len() != 0` parsing loop of
`ItemStackMetadata::deserialize`: split the name at the first `\x02`
(or end), skip it, split the value at the first `\x03` (or end), skip
it. The fuel argument only bounds the iteration count (each pass
consumes at least one byte). -/
def parseLoopF : Nat → List Nat → List (List Nat × List Nat)
  | 0, _ => []
  | fuel + 1, raw =>
    if raw = [] then []
    else
      let name := raw.takeWhile (fun ch => !(ch == DESERIALIZE_KV_DELIM))
      let r1 := skipDelim (raw.dropWhile (fun ch => !(ch == DESERIALIZE_KV_DELIM)))
      let var := r1.takeWhile (fun ch => !(ch == DESERIALIZE_PAIR_DELIM))
      let r2 := skipDelim (r1.dropWhile (fun ch => !(ch == DESERIALIZE_PAIR_DELIM)))
      (name, var) :: parseLoopF fuel r2

/-- `ItemStackMetadata::deserialize`: unescape, demand the `\x01` start
byte, then run the parsing loop. Returns the pairs and the unconsumed
input. -/
def deserialize (input : List Nat) :
    Except Unit (List (List Nat × List Nat) × List Nat) :=
  match deserialize_json_string_if_needed input with
  | Except.error e => Except.error e
  | Except.ok (raw, restAfter) =>
    match raw with
    | [] => Except.ok ([], restAfter)
    | c :: rest =>
      if c = DESERIALIZE_START then Except.ok (parseLoopF rest.length rest, restAfter)
      else Except.error ()

end ItemStackMetadata

/-- C10 counterexample: the metadata `[("", "\x03")]` (empty key, value
equal to the pair-delimiter byte) serializes with the pair kept, but
deserializing those bytes yields the pairs `("", "")` and `("\x03", "")`
— including a pair whose key and value are both empty. -/
theorem itemstack_metadata_empty_pair_cex :
    ItemStackMetadata.deserialize (ItemStackMetadata.serialize [([], [3])])
      = Except.ok ([([], []), ([3], [])], []) ∧
    (([], []) ∈ [(([] : List Nat), ([] : List Nat)), ([3], [])]) :=
  ⟨rfl, by decide⟩

theorem takeWhile_append_sep {α : Type u} (p : α → Bool) (k : List α) (x : α)
    (rest : List α) (hk : ∀ c ∈ k, p c = true) (hx : p x = false) :
    (k ++ x :: rest).takeWhile p = k ∧ (k ++ x :: rest).dropWhile p = x :: rest := by
  induction k with
  | nil =>
    simp only [List.nil_append, List.takeWhile_cons, List.dropWhile_cons, hx]
    exact ⟨rfl, rfl⟩
  | cons c k' ih =>
    have hc : p c = true := hk c (List.mem_cons_self _ _)
    have ih' := ih fun d hd => hk d (List.mem_cons.mpr (Or.inr hd))
    simp only [List.cons_append, List.takeWhile_cons, List.dropWhile_cons, hc]
    exact ⟨by rw [ih'.1]; simp, ih'.2⟩

theorem takeWhile_all {α : Type u} (p : α → Bool) (l : List α)
    (h : ∀ c ∈ l, p c = true) :
    l.takeWhile p = l ∧ l.dropWhile p = [] := by
  induction l with
  | nil => exact ⟨rfl, rfl⟩
  | cons c t ih =>
    have hc : p c = true := h c (List.mem_cons_self _ _)
    have ih' := ih fun d hd => h d (List.mem_cons.mpr (Or.inr hd))
    simp only [List.takeWhile_cons, List.dropWhile_cons, hc]
    exact ⟨by rw [ih'.1]; simp, ih'.2⟩

theorem from_hex_to_hex (x : Nat) (h : x < 16) :
    from_hex (to_hex x) = Except.ok x := by
  interval_cases x <;> rfl

theorem djs_loop_quote (l acc : List Nat) :
    djs_loop (34 :: l) acc = Except.ok (acc, l) := by
  conv_lhs => unfold djs_loop
  norm_num

theorem djs_loop_esc_quote (l acc : List Nat) :
    djs_loop (92 :: 34 :: l) acc = djs_loop l (acc ++ [34]) := by
  conv_lhs => unfold djs_loop
  norm_num

theorem djs_loop_esc_backslash (l acc : List Nat) :
    djs_loop (92 :: 92 :: l) acc = djs_loop l (acc ++ [92]) := by
  conv_lhs => unfold djs_loop
  norm_num

theorem djs_loop_esc_b (l acc : List Nat) :
    djs_loop (92 :: 98 :: l) acc = djs_loop l (acc ++ [8]) := by
  conv_lhs => unfold djs_loop
  norm_num

theorem djs_loop_esc_f (l acc : List Nat) :
    djs_loop (92 :: 102 :: l) acc = djs_loop l (acc ++ [12]) := by
  conv_lhs => unfold djs_loop
  norm_num

theorem djs_loop_esc_n (l acc : List Nat) :
    djs_loop (92 :: 110 :: l) acc = djs_loop l (acc ++ [10]) := by
  conv_lhs => unfold djs_loop
  norm_num

theorem djs_loop_esc_r (l acc : List Nat) :
    djs_loop (92 :: 114 :: l) acc = djs_loop l (acc ++ [13]) := by
  conv_lhs => unfold djs_loop
  norm_num

theorem djs_loop_esc_t (l acc : List Nat) :
    djs_loop (92 :: 116 :: l) acc = djs_loop l (acc ++ [9]) := by
  conv_lhs => unfold djs_loop
  norm_num

theorem djs_loop_esc_u (c3 c4 : Nat) (l acc : List Nat) :
    djs_loop (92 :: 117 :: 48 :: 48 :: c3 :: c4 :: l) acc
      = match from_hex c3, from_hex c4 with
        | Except.ok hi, Except.ok lo => djs_loop l (acc ++ [hi * 16 + lo])
        | _, _ => Except.error () := by
  conv_lhs => unfold djs_loop
  norm_num

theorem djs_loop_plain (c : Nat) (h1 : c ≠ 34) (h2 : c ≠ 92) (l acc : List Nat) :
    djs_loop (c :: l) acc = djs_loop l (acc ++ [c]) := by
  conv_lhs => unfold djs_loop
  rw [if_neg h1, if_neg h2]

/-- Unescaping an escaped byte string stops exactly at the closing
quote, recovering the original bytes. -/
theorem djs_loop_esc (buf : List Nat) (h : ∀ c ∈ buf, c < 256)
    (rest acc : List Nat) :
    djs_loop ((buf.map json_escape_char).flatten ++ 34 :: rest) acc
      = Except.ok (acc ++ buf, rest) := by
  induction buf generalizing acc with
  | nil =>
    simp only [List.map_nil, List.flatten_nil, List.nil_append, djs_loop_quote,
      List.append_nil]
  | cons c tl ih =>
    have hc : c < 256 := h c (List.mem_cons_self _ _)
    have htl : ∀ d ∈ tl, d < 256 := fun d hd => h d (List.mem_cons.mpr (Or.inr hd))
    have ih' := fun acc' => ih htl acc'
    have hacc : (acc ++ [c]) ++ tl = acc ++ c :: tl := by simp
    simp only [List.map_cons, List.flatten_cons, List.append_assoc]
    by_cases h34 : c = 34
    · subst h34
      rw [show json_escape_char 34 = [92, 34] from rfl]
      simp only [List.cons_append, List.nil_append]
      rw [djs_loop_esc_quote, ih', hacc]
    · by_cases h92 : c = 92
      · subst h92
        rw [show json_escape_char 92 = [92, 92] from rfl]
        simp only [List.cons_append, List.nil_append]
        rw [djs_loop_esc_backslash, ih', hacc]
      · by_cases h8 : c = 8
        · subst h8
          rw [show json_escape_char 8 = [92, 98] from rfl]
          simp only [List.cons_append, List.nil_append]
          rw [djs_loop_esc_b, ih', hacc]
        · by_cases h12 : c = 12
          · subst h12
            rw [show json_escape_char 12 = [92, 102] from rfl]
            simp only [List.cons_append, List.nil_append]
            rw [djs_loop_esc_f, ih', hacc]
          · by_cases h10 : c = 10
            · subst h10
              rw [show json_escape_char 10 = [92, 110] from rfl]
              simp only [List.cons_append, List.nil_append]
              rw [djs_loop_esc_n, ih', hacc]
            · by_cases h13 : c = 13
              · subst h13
                rw [show json_escape_char 13 = [92, 114] from rfl]
                simp only [List.cons_append, List.nil_append]
                rw [djs_loop_esc_r, ih', hacc]
              · by_cases h9 : c = 9
                · subst h9
                  rw [show json_escape_char 9 = [92, 116] from rfl]
                  simp only [List.cons_append, List.nil_append]
                  rw [djs_loop_esc_t, ih', hacc]
                · by_cases hpr : 32 ≤ c ∧ c ≤ 126
                  · have hesc : json_escape_char c = [c] := by
                      unfold json_escape_char
                      rw [if_neg h34, if_neg h92, if_neg h8, if_neg h12,
                        if_neg h10, if_neg h13, if_neg h9, if_pos hpr]
                    rw [hesc]
                    simp only [List.cons_append, List.nil_append]
                    rw [djs_loop_plain c h34 h92, ih', hacc]
                  · have hesc : json_escape_char c
                        = [92, 117, 48, 48, to_hex (c / 16), to_hex (c % 16)] := by
                      unfold json_escape_char
                      rw [if_neg h34, if_neg h92, if_neg h8, if_neg h12,
                        if_neg h10, if_neg h13, if_neg h9, if_neg hpr]
                    have hdiv : c / 16 < 16 := by omega
                    have hmod : c % 16 < 16 := by omega
                    rw [hesc]
                    simp only [List.cons_append, List.nil_append]
                    rw [djs_loop_esc_u]
                    rw [from_hex_to_hex _ hdiv, from_hex_to_hex _ hmod]
                    dsimp only
                    have hrec : c / 16 * 16 + c % 16 = c := by omega
                    rw [hrec, ih', hacc]

/-- The json-if-needed layer round-trips (on bytes). -/
theorem json_roundtrip (buf : List Nat) (h : ∀ c ∈ buf, c < 256) :
    deserialize_json_string_if_needed (serialize_json_string_if_needed buf)
      = Except.ok (buf, []) := by
  unfold serialize_json_string_if_needed
  split
  · unfold serialize_json_string
    have hlist : (([34] : List Nat) ++ (buf.map json_escape_char).flatten ++ [34])
        = 34 :: ((buf.map json_escape_char).flatten ++ 34 :: []) := by simp
    rw [hlist]
    unfold deserialize_json_string_if_needed
    dsimp only
    rw [if_pos rfl]
    unfold deserialize_json_string
    have hloop := djs_loop_esc buf h [] []
    simpa using hloop
  · rename_i hcond
    push_neg at hcond
    obtain ⟨hne, hall⟩ := hcond
    cases hb : buf with
    | nil => rw [hb] at hne; exact absurd rfl hne
    | cons c rest' =>
      subst hb
      have hff : ∀ d ∈ c :: rest', json_needs_escape d = false := by
        intro d hd
        by_contra hdd
        have hdt : json_needs_escape d = true := by
          revert hdd
          cases json_needs_escape d
          · intro hh; exact absurd rfl hh
          · intro _; rfl
        exact hall (List.any_eq_true.mpr ⟨d, hd, hdt⟩)
      have hbound : ∀ d ∈ c :: rest', 33 ≤ d ∧ d ≤ 126 ∧ d ≠ 34 := by
        intro d hd
        have hfd := hff d hd
        unfold json_needs_escape at hfd
        simp only [Bool.or_eq_false_iff, decide_eq_false_iff_not] at hfd
        omega
      unfold deserialize_json_string_if_needed
      dsimp only
      have hc34 : ¬ c = 34 := (hbound c (List.mem_cons_self _ _)).2.2
      rw [if_neg hc34]
      have hptrue : ∀ d ∈ c :: rest', (!(d == 32 || d == 10)) = true := by
        intro d hd
        have := hbound d hd
        simp only [Bool.not_eq_true']
        simp only [Bool.or_eq_false_iff, beq_eq_false_iff_ne]
        omega
      have ht := takeWhile_all _ (c :: rest') hptrue
      rw [ht.1, ht.2]

theorem skipDelim_cons (c : Nat) (l : List Nat) :
    ItemStackMetadata.skipDelim (c :: l) = l := by
  unfold ItemStackMetadata.skipDelim
  rw [if_neg (by simp)]
  rfl

/-- Parsing the delimited encoding of clean pairs (keys free of `\x02`,
values free of `\x03`) recovers exactly those pairs. -/
theorem parseLoopF_pairs (pairs : List (List Nat × List Nat))
    (hcl : ∀ p ∈ pairs, (∀ c ∈ p.1, c ≠ 2) ∧ (∀ c ∈ p.2, c ≠ 3)) (fuel : Nat)
    (hfuel : ((pairs.map fun p => p.1 ++ [2] ++ p.2 ++ [3]).flatten).length ≤ fuel) :
    ItemStackMetadata.parseLoopF fuel
      ((pairs.map fun p => p.1 ++ [2] ++ p.2 ++ [3]).flatten) = pairs := by
  induction pairs generalizing fuel with
  | nil =>
    cases fuel with
    | zero => rfl
    | succ f =>
      rw [ItemStackMetadata.parseLoopF]
      simp
  | cons p tl ih =>
    obtain ⟨k, v⟩ := p
    have hk2 : ∀ c ∈ k, (!(c == (2 : Nat))) = true := by
      intro c hc
      have := (hcl (k, v) (List.mem_cons_self _ _)).1 c hc
      simpa using this
    have hv3 : ∀ c ∈ v, (!(c == (3 : Nat))) = true := by
      intro c hc
      have := (hcl (k, v) (List.mem_cons_self _ _)).2 c hc
      simpa using this
    have hcl' : ∀ p ∈ tl, (∀ c ∈ p.1, c ≠ 2) ∧ (∀ c ∈ p.2, c ≠ 3) :=
      fun p hp => hcl p (List.mem_cons.mpr (Or.inr hp))
    have hassoc : k ++ [2] ++ v ++ [3]
          ++ ((tl.map fun p => p.1 ++ [2] ++ p.2 ++ [3]).flatten)
        = k ++ 2 :: (v ++ 3 ::
            ((tl.map fun p => p.1 ++ [2] ++ p.2 ++ [3]).flatten)) := by
      simp
    rw [List.map_cons, List.flatten_cons] at hfuel ⊢
    dsimp only at hfuel ⊢
    rw [hassoc] at hfuel ⊢
    cases fuel with
    | zero =>
      exfalso
      simp only [List.length_append, List.length_cons] at hfuel
      omega
    | succ f =>
      rw [ItemStackMetadata.parseLoopF]
      rw [if_neg (by simp)]
      dsimp only
      simp only [DESERIALIZE_KV_DELIM, DESERIALIZE_PAIR_DELIM]
      have hsplit1 := takeWhile_append_sep (fun ch => !(ch == (2 : Nat))) k 2
        (v ++ 3 :: ((tl.map fun p => p.1 ++ [2] ++ p.2 ++ [3]).flatten))
        hk2 (by simp)
      rw [hsplit1.1, hsplit1.2, skipDelim_cons]
      have hsplit2 := takeWhile_append_sep (fun ch => !(ch == (3 : Nat))) v 3
        ((tl.map fun p => p.1 ++ [2] ++ p.2 ++ [3]).flatten) hv3 (by simp)
      rw [hsplit2.1, hsplit2.2, skipDelim_cons]
      have hfuel' : ((tl.map fun p => p.1 ++ [2] ++ p.2 ++ [3]).flatten).length ≤ f := by
        simp only [List.length_append, List.length_cons] at hfuel
        omega
      rw [ih hcl' f hfuel']

/-- Dropping the pairs whose key and value are both empty does not
change the delimited buffer: they contribute nothing to it. -/
theorem enc_filter_eq (pairs : List (List Nat × List Nat)) :
    (pairs.map (fun p =>
      if p.1 ≠ [] ∨ p.2 ≠ [] then p.1 ++ [2] ++ p.2 ++ [3] else [])).flatten
    = ((pairs.filter (fun p => decide (p.1 ≠ [] ∨ p.2 ≠ []))).map
        (fun p => p.1 ++ [2] ++ p.2 ++ [3])).flatten := by
  induction pairs with
  | nil => rfl
  | cons p tl ih =>
    by_cases hp : p.1 ≠ [] ∨ p.2 ≠ []
    · rw [List.map_cons, List.flatten_cons, if_pos hp,
        List.filter_cons_of_pos (by simpa using hp), List.map_cons,
        List.flatten_cons, ih]
    · rw [List.map_cons, List.flatten_cons, if_neg hp,
        List.filter_cons_of_neg (by simpa using hp), ih]
      rfl

/-- `serialize` only depends on the pairs that survive the both-empty
filter: the skipped pairs contribute nothing to the buffer. -/
theorem serialize_filter_eq (pairs : List (List Nat × List Nat)) :
    ItemStackMetadata.serialize pairs
      = ItemStackMetadata.serialize
          (pairs.filter (fun q => decide (q.1 ≠ [] ∨ q.2 ≠ []))) := by
  unfold ItemStackMetadata.serialize
  simp only [DESERIALIZE_START, DESERIALIZE_KV_DELIM, DESERIALIZE_PAIR_DELIM]
  rw [enc_filter_eq pairs]
  rw [show ((pairs.filter (fun q => decide (q.1 ≠ [] ∨ q.2 ≠ []))).map
        (fun p => if p.1 ≠ [] ∨ p.2 ≠ [] then p.1 ++ [2] ++ p.2 ++ [3] else []))
      = ((pairs.filter (fun q => decide (q.1 ≠ [] ∨ q.2 ≠ []))).map
        (fun p => p.1 ++ [2] ++ p.2 ++ [3])) from
    List.map_congr_left (fun q hq =>
      if_pos (of_decide_eq_true (List.mem_filter.mp hq).2))]

/-- C10 (amended): `ItemStackMetadata::serialize` omits exactly the
pairs whose key and value are both empty, so metadata values whose
both-empty pairs are the only difference serialize to the same bytes.
The round-trip conclusion needs the side conditions the original claim
lacks: when every key is free of the `\x02` delimiter, every value is
free of the `\x03` delimiter and all bytes are below 256, deserializing
a serialized metadata yields precisely the kept pairs - none of which
has both key and value empty - with no unconsumed input. Without those
conditions a serialized value can deserialize to a list containing a
both-empty pair (see the counterexample). -/
theorem itemstack_metadata_sanitize_spec
    (p1 p2 : List (List Nat × List Nat))
    (hb : ∀ q ∈ p1, (∀ c ∈ q.1, c < 256 ∧ c ≠ 2) ∧ (∀ c ∈ q.2, c < 256 ∧ c ≠ 3)) :
    ItemStackMetadata.serialize p1
      = ItemStackMetadata.serialize
          (p1.filter (fun q => decide (q.1 ≠ [] ∨ q.2 ≠ [])))
    ∧ (p1.filter (fun q => decide (q.1 ≠ [] ∨ q.2 ≠ []))
         = p2.filter (fun q => decide (q.1 ≠ [] ∨ q.2 ≠ []))
       → ItemStackMetadata.serialize p1 = ItemStackMetadata.serialize p2)
    ∧ ItemStackMetadata.deserialize (ItemStackMetadata.serialize p1)
        = Except.ok (p1.filter (fun q => decide (q.1 ≠ [] ∨ q.2 ≠ [])), [])
    ∧ ∀ q ∈ p1.filter (fun q => decide (q.1 ≠ [] ∨ q.2 ≠ [])),
        ¬ (q.1 = [] ∧ q.2 = []) := by
  refine ⟨serialize_filter_eq p1, ?_, ?_, ?_⟩
  · intro hf
    rw [serialize_filter_eq p1, serialize_filter_eq p2, hf]
  · have hser : ItemStackMetadata.serialize p1
        = serialize_json_string_if_needed
            (1 :: ((p1.filter (fun q => decide (q.1 ≠ [] ∨ q.2 ≠ []))).map
              (fun q => q.1 ++ [2] ++ q.2 ++ [3])).flatten) := by
      unfold ItemStackMetadata.serialize
      simp only [DESERIALIZE_START, DESERIALIZE_KV_DELIM, DESERIALIZE_PAIR_DELIM]
      rw [enc_filter_eq p1]
      rfl
    have hbytes : ∀ c ∈ (1 :: ((p1.filter (fun q => decide (q.1 ≠ [] ∨ q.2 ≠ []))).map
          (fun q => q.1 ++ [2] ++ q.2 ++ [3])).flatten), c < 256 := by
      intro c hc
      rcases List.mem_cons.mp hc with h1 | h2
      · omega
      · obtain ⟨l, hl, hcl⟩ := List.mem_flatten.mp h2
        obtain ⟨q, hq, hmap⟩ := List.mem_map.mp hl
        have hqmem : q ∈ p1 := List.mem_of_mem_filter hq
        rw [← hmap] at hcl
        simp only [List.mem_append, List.mem_singleton] at hcl
        rcases hcl with ((hk | h2') | hv) | h3'
        · exact ((hb q hqmem).1 c hk).1
        · omega
        · exact ((hb q hqmem).2 c hv).1
        · omega
    rw [hser]
    unfold ItemStackMetadata.deserialize
    rw [json_roundtrip _ hbytes]
    dsimp only
    rw [if_pos (show (1 : Nat) = DESERIALIZE_START from rfl)]
    rw [parseLoopF_pairs (p1.filter (fun q => decide (q.1 ≠ [] ∨ q.2 ≠ [])))
      (fun q hq => ⟨fun c hc => ((hb q (List.mem_of_mem_filter hq)).1 c hc).2,
        fun c hc => ((hb q (List.mem_of_mem_filter hq)).2 c hc).2⟩)
      _ (Nat.le_refl _)]
  · intro q hq hboth
    rcases of_decide_eq_true (List.mem_filter.mp hq).2 with h | h
    · exact h hboth.1
    · exact h hboth.2

/-- Concrete instance of the amended C10 theorem: the both-empty pair
is dropped by `serialize` and absent after the round trip. -/
theorem itemstack_metadata_sanitize_spec_witness :
    ItemStackMetadata.deserialize
        (ItemStackMetadata.serialize [(([] : List Nat), ([] : List Nat)), ([97], [98])])
      = Except.ok ([([97], [98])], []) ∧
    ItemStackMetadata.serialize [(([] : List Nat), ([] : List Nat)), ([97], [98])]
      = ItemStackMetadata.serialize [([97], [98])] := by
  have h := itemstack_metadata_sanitize_spec
    [(([] : List Nat), ([] : List Nat)), ([97], [98])] [([97], [98])] (by decide)
  constructor
  · have h3 := h.2.2.1
    rw [show (List.filter (fun q => decide (q.1 ≠ [] ∨ q.2 ≠ []))
        [(([] : List Nat), ([] : List Nat)), ([97], [98])]) = [([97], [98])]
      from by decide] at h3
    exact h3
  · exact h.2.1 (by decide)

/-! ## wire/deser.rs and wire/util.rs: word-based text deserialization

`InventoryAction` and `InventoryLocation` (wire/types.rs) use a textual
space-separated encoding via `Deserializer::take_word(true)`,
`stoi`/`itos` and byte-slice comparisons. Strings are byte lists; the
`std::str::from_utf8` conversions are identities here, faithful on the
ASCII inputs to which the round-trip theorem is restricted. -/

/-- `Deserializer::take_space`: drop leading spaces and newlines. -/
def take_space (d : List Nat) : List Nat :=
  d.dropWhile (fun ch => ch == 32 || ch == 10)

/-- `Deserializer::take_word(true)`: skip whitespace, then take bytes up
to (excluding) the next space or newline; returns the word and the
remaining stream. -/
def take_word (d : List Nat) : List Nat × List Nat :=
  ((take_space d).takeWhile (fun ch => !(ch == 32 || ch == 10)),
   (take_space d).dropWhile (fun ch => !(ch == 32 || ch == 10)))

/-- Accumulator pass of integer parsing: consume decimal digits,
failing on any non-digit byte. -/
def digitsVal : List Nat → Nat → Option Nat
  | [], acc => some acc
  | c :: r, acc =>
    if 48 ≤ c ∧ c ≤ 57 then digitsVal r (acc * 10 + (c - 48)) else none

/-- The optional leading `+` accepted by Rust integer `FromStr`. -/
def stripPlus (b : List Nat) : List Nat :=
  match b with
  | c :: r => if c = 43 then r else b
  | [] => b

/-- `stoi::<u16>`: optional `+`, one or more digits, value below 2^16. -/
def stoiU16 (b : List Nat) : Except Unit Nat :=
  if stripPlus b = [] then Except.error ()
  else match digitsVal (stripPlus b) 0 with
    | none => Except.error ()
    | some n => if n < 65536 then Except.ok n else Except.error ()

/-- `stoi::<i16>`: optional sign, digits, value in `[-32768, 32767]`. -/
def stoiI16 (b : List Nat) : Except Unit Int :=
  match b with
  | [] => Except.error ()
  | c :: r =>
    if c = 45 then
      if r = [] then Except.error ()
      else match digitsVal r 0 with
        | none => Except.error ()
        | some n => if n ≤ 32768 then Except.ok (-(n : Int)) else Except.error ()
    else
      if stripPlus (c :: r) = [] then Except.error ()
      else match digitsVal (stripPlus (c :: r)) 0 with
        | none => Except.error ()
        | some n => if n ≤ 32767 then Except.ok ((n : Int)) else Except.error ()

/-- Digit expansion of a positive natural (most significant first); the
fuel only bounds the digit count (`n / 10 < n`). -/
def natDigits : Nat → Nat → List Nat
  | 0, _ => []
  | fuel + 1, n => if n = 0 then [] else natDigits fuel (n / 10) ++ [48 + n % 10]

/-- `itos!` on a natural number: its decimal byte string. -/
def itosNat (n : Nat) : List Nat :=
  if n = 0 then [48] else natDigits n n

/-- `itos!` on an integer: optional `-` then the decimal digits. -/
def itosInt (i : Int) : List Nat :=
  if i < 0 then 45 :: itosNat i.natAbs else itosNat i.toNat

/-- Rust `slice::split(|ch| ch == 44)` (split on commas, keeping empty
segments). -/
def splitComma : List Nat → List (List Nat)
  | [] => [[]]
  | c :: r =>
    if c = 44 then [] :: splitComma r
    else match splitComma r with
      | [] => [[c]]
      | h :: t => (c :: h) :: t

/-- Byte string `"undefined"`. -/
def UNDEFINED_W : List Nat := [117, 110, 100, 101, 102, 105, 110, 101, 100]

/-- Byte string `"current_player"`. -/
def CURRENT_PLAYER_W : List Nat :=
  [99, 117, 114, 114, 101, 110, 116, 95, 112, 108, 97, 121, 101, 114]

/-- Byte string `"player:"`. -/
def PLAYER_P : List Nat := [112, 108, 97, 121, 101, 114, 58]

/-- Byte string `"nodemeta:"`. -/
def NODEMETA_P : List Nat := [110, 111, 100, 101, 109, 101, 116, 97, 58]

/-- Byte string `"detached:"`. -/
def DETACHED_P : List Nat := [100, 101, 116, 97, 99, 104, 101, 100, 58]

/-- Byte string `"Move"`. -/
def MOVE_W : List Nat := [77, 111, 118, 101]

/-- Byte string `"MoveSomewhere"`. -/
def MOVE_SOMEWHERE_W : List Nat :=
  [77, 111, 118, 101, 83, 111, 109, 101, 119, 104, 101, 114, 101]

/-- Byte string `"Drop"`. -/
def DROP_W : List Nat := [68, 114, 111, 112]

/-- Byte string `"Craft"`. -/
def CRAFT_W : List Nat := [67, 114, 97, 102, 116]

/-- `InventoryLocation` (wire/types.rs); names are byte strings,
node positions are `v3s16` coordinates. -/
inductive InventoryLocation where
  | undefined : InventoryLocation
  | current_player : InventoryLocation
  | player (name : List Nat) : InventoryLocation
  | nodemeta (x y z : Int) : InventoryLocation
  | detached (name : List Nat) : InventoryLocation
deriving DecidableEq

/-- `Serialize for InventoryLocation`. -/
def InventoryLocation.ser : InventoryLocation → List Nat
  | .undefined => UNDEFINED_W
  | .current_player => CURRENT_PLAYER_W
  | .player name => PLAYER_P ++ name
  | .nodemeta x y z =>
    NODEMETA_P ++ itosInt x ++ [44] ++ itosInt y ++ [44] ++ itosInt z
  | .detached name => DETACHED_P ++ name

/-- `Deserialize for InventoryLocation`: take a word, compare against
the known forms; `starts_with` is `take k = `; `nodemeta` splits the
suffix on commas and requires exactly three coordinates. -/
def InventoryLocation.deser (d : List Nat) :
    Except Unit (InventoryLocation × List Nat) :=
  match take_word d with
  | (word, d1) =>
    if word = UNDEFINED_W then Except.ok (.undefined, d1)
    else if word = CURRENT_PLAYER_W then Except.ok (.current_player, d1)
    else if word.take 7 = PLAYER_P then Except.ok (.player (word.drop 7), d1)
    else if word.take 9 = NODEMETA_P then
      match splitComma (word.drop 9) with
      | [a, b, c] =>
        match stoiI16 a, stoiI16 b, stoiI16 c with
        | Except.ok x, Except.ok y, Except.ok z => Except.ok (.nodemeta x y z, d1)
        | _, _, _ => Except.error ()
      | _ => Except.error ()
    else if word.take 9 = DETACHED_P then Except.ok (.detached (word.drop 9), d1)
    else Except.error ()

/-- `InventoryAction` (wire/types.rs); `Move` covers both `Move`
(`to_i = some`) and `MoveSomewhere` (`to_i = none`). -/
inductive InventoryAction where
  | Move (count : Nat) (from_inv : InventoryLocation) (from_list : List Nat)
      (from_i : Int) (to_inv : InventoryLocation) (to_list : List Nat)
      (to_i : Option Int) : InventoryAction
  | Craft (count : Nat) (craft_inv : InventoryLocation) : InventoryAction
  | Drop (count : Nat) (from_inv : InventoryLocation) (from_list : List Nat)
      (from_i : Int) : InventoryAction
deriving DecidableEq

/-- `Serialize for InventoryAction`: space-separated words; `Craft`
writes a trailing space (kept for compatibility with Minetest). -/
def InventoryAction.ser : InventoryAction → List Nat
  | .Move count from_inv from_list from_i to_inv to_list to_i =>
    (match to_i with
     | some _ => MOVE_W ++ [32]
     | none => MOVE_SOMEWHERE_W ++ [32]) ++
    itosNat count ++ [32] ++ from_inv.ser ++ [32] ++ from_list ++ [32] ++
    itosInt from_i ++ [32] ++ to_inv.ser ++ [32] ++ to_list ++
    (match to_i with
     | some t => [32] ++ itosInt t
     | none => [])
  | .Craft count craft_inv =>
    CRAFT_W ++ [32] ++ itosNat count ++ [32] ++ craft_inv.ser ++ [32]
  | .Drop count from_inv from_list from_i =>
    DROP_W ++ [32] ++ itosNat count ++ [32] ++ from_inv.ser ++ [32] ++
    from_list ++ [32] ++ itosInt from_i

/-- `Deserialize for InventoryAction`: dispatch on the first word, then
read the fields in order with `take_word`/`stoi`; `Move` reads `to_i`
only when the keyword was `Move`. -/
def InventoryAction.deser (d : List Nat) :
    Except Unit (InventoryAction × List Nat) :=
  match take_word d with
  | (word, d1) =>
    if word = MOVE_W ∨ word = MOVE_SOMEWHERE_W then
      match take_word d1 with
      | (w1, d2) =>
      match stoiU16 w1 with
      | Except.error _ => Except.error ()
      | Except.ok count =>
      match InventoryLocation.deser d2 with
      | Except.error _ => Except.error ()
      | Except.ok (from_inv, d3) =>
      match take_word d3 with
      | (from_list, d4) =>
      match take_word d4 with
      | (w2, d5) =>
      match stoiI16 w2 with
      | Except.error _ => Except.error ()
      | Except.ok from_i =>
      match InventoryLocation.deser d5 with
      | Except.error _ => Except.error ()
      | Except.ok (to_inv, d6) =>
      match take_word d6 with
      | (to_list, d7) =>
      if word = MOVE_W then
        match take_word d7 with
        | (w3, d8) =>
        match stoiI16 w3 with
        | Except.error _ => Except.error ()
        | Except.ok to_i =>
          Except.ok (.Move count from_inv from_list from_i to_inv to_list (some to_i), d8)
      else Except.ok (.Move count from_inv from_list from_i to_inv to_list none, d7)
    else if word = DROP_W then
      match take_word d1 with
      | (w1, d2) =>
      match stoiU16 w1 with
      | Except.error _ => Except.error ()
      | Except.ok count =>
      match InventoryLocation.deser d2 with
      | Except.error _ => Except.error ()
      | Except.ok (from_inv, d3) =>
      match take_word d3 with
      | (from_list, d4) =>
      match take_word d4 with
      | (w2, d5) =>
      match stoiI16 w2 with
      | Except.error _ => Except.error ()
      | Except.ok from_i => Except.ok (.Drop count from_inv from_list from_i, d5)
    else if word = CRAFT_W then
      match take_word d1 with
      | (w1, d2) =>
      match stoiU16 w1 with
      | Except.error _ => Except.error ()
      | Except.ok count =>
      match InventoryLocation.deser d2 with
      | Except.error _ => Except.error ()
      | Except.ok (craft_inv, d3) => Except.ok (.Craft count craft_inv, d3)
    else Except.error ()

/-- The `ToServerCommand::InventoryAction` arm of `define_protocol!`
(command id `0x31`): the command id as a big-endian `u16`, then the
action. -/
inductive ToServerCommand where
  | InventoryActionCmd (action : InventoryAction) : ToServerCommand
deriving DecidableEq

/-- `Serialize for ToServerCommand` at the `0x31` arm. -/
def ToServerCommand.ser : ToServerCommand → List Nat
  | .InventoryActionCmd action => [0, 49] ++ action.ser

/-- `Deserialize for ToServerCommand` restricted to the `0x31` arm: any
other command id is a `BadPacketId` error here. -/
def ToServerCommand.deser (d : List Nat) :
    Except Unit (ToServerCommand × List Nat) :=
  match d with
  | b1 :: b2 :: rest =>
    if b1 * 256 + b2 = 49 then
      match InventoryAction.deser rest with
      | Except.error _ => Except.error ()
      | Except.ok (action, r) => Except.ok (.InventoryActionCmd action, r)
    else Except.error ()
  | _ => Except.error ()

/-- Unconsumed trailing bytes of a round trip: the trailing space
`Craft` writes, nothing otherwise. -/
def trailingRest : InventoryAction → List Nat
  | .Craft _ _ => [32]
  | _ => []

/-- Strings that survive the word-based round trip: ASCII and free of
the space/newline separators. -/
def cleanStr (s : List Nat) : Prop := ∀ c ∈ s, c < 128 ∧ c ≠ 32 ∧ c ≠ 10

/-- Side conditions on a location: clean names, i16 coordinates. -/
def cleanLoc : InventoryLocation → Prop
  | .undefined => True
  | .current_player => True
  | .player name => cleanStr name
  | .nodemeta x y z =>
    (-32768 ≤ x ∧ x ≤ 32767) ∧ (-32768 ≤ y ∧ y ≤ 32767) ∧ (-32768 ≤ z ∧ z ≤ 32767)
  | .detached name => cleanStr name

/-- Side conditions on an action: u16 count, i16 indices, clean and
nonempty list names, clean locations. -/
def cleanAct : InventoryAction → Prop
  | .Move count from_inv from_list from_i to_inv to_list to_i =>
    count < 65536 ∧ cleanLoc from_inv ∧ cleanStr from_list ∧ from_list ≠ [] ∧
    (-32768 ≤ from_i ∧ from_i ≤ 32767) ∧ cleanLoc to_inv ∧ cleanStr to_list ∧
    to_list ≠ [] ∧
    (match to_i with
     | some t => -32768 ≤ t ∧ t ≤ 32767
     | none => True)
  | .Craft count craft_inv => count < 65536 ∧ cleanLoc craft_inv
  | .Drop count from_inv from_list from_i =>
    count < 65536 ∧ cleanLoc from_inv ∧ cleanStr from_list ∧ from_list ≠ [] ∧
    (-32768 ≤ from_i ∧ from_i ≤ 32767)

/-- C9 counterexample: the cataloged ToServer command `0x31`
(`TSInventoryAction`) carrying `Craft { count: 1, craft_inv: Player
{ name: "a b" } }` serializes successfully, but deserializing those
bytes yields a different command: the player name is cut at the space,
producing `Player { name: "a" }` (and the round trip is not even
injective on the remaining stream). -/
theorem inventory_action_roundtrip_cex :
    ToServerCommand.deser (ToServerCommand.ser
        (ToServerCommand.InventoryActionCmd
          (InventoryAction.Craft 1 (InventoryLocation.player [97, 32, 98]))))
      = Except.ok (ToServerCommand.InventoryActionCmd
          (InventoryAction.Craft 1 (InventoryLocation.player [97])), [32, 98, 32])
    ∧ ToServerCommand.InventoryActionCmd
          (InventoryAction.Craft 1 (InventoryLocation.player [97]))
        ≠ ToServerCommand.InventoryActionCmd
          (InventoryAction.Craft 1 (InventoryLocation.player [97, 32, 98])) :=
  ⟨rfl, by decide⟩

theorem natDigits_zero (fuel : Nat) : natDigits fuel 0 = [] := by
  cases fuel <;> simp [natDigits]

theorem natDigits_mem (fuel : Nat) :
    ∀ n c, c ∈ natDigits fuel n → 48 ≤ c ∧ c ≤ 57 := by
  induction fuel with
  | zero => intro n c hc; simp [natDigits] at hc
  | succ f ih =>
    intro n c hc
    rw [natDigits] at hc
    by_cases hn : n = 0
    · rw [if_pos hn] at hc; simp at hc
    · rw [if_neg hn] at hc
      rcases List.mem_append.mp hc with h | h
      · exact ih _ _ h
      · have : c = 48 + n % 10 := by simpa using h
        omega

theorem itosNat_mem (n : Nat) : ∀ c ∈ itosNat n, 48 ≤ c ∧ c ≤ 57 := by
  intro c hc
  unfold itosNat at hc
  by_cases hn : n = 0
  · rw [if_pos hn] at hc
    have : c = 48 := by simpa using hc
    omega
  · rw [if_neg hn] at hc
    exact natDigits_mem n n c hc

theorem itosNat_ne_nil (n : Nat) : itosNat n ≠ [] := by
  unfold itosNat
  by_cases hn : n = 0
  · rw [if_pos hn]; simp
  · rw [if_neg hn]
    obtain ⟨f, rfl⟩ : ∃ f, n = f + 1 := ⟨n - 1, by omega⟩
    rw [natDigits, if_neg hn]
    simp

theorem itosInt_mem (i : Int) :
    ∀ c ∈ itosInt i, c = 45 ∨ (48 ≤ c ∧ c ≤ 57) := by
  intro c hc
  unfold itosInt at hc
  by_cases hi : i < 0
  · rw [if_pos hi] at hc
    rcases List.mem_cons.mp hc with h | h
    · exact Or.inl h
    · exact Or.inr (itosNat_mem _ c h)
  · rw [if_neg hi] at hc
    exact Or.inr (itosNat_mem _ c hc)

theorem itosInt_ne_nil (i : Int) : itosInt i ≠ [] := by
  unfold itosInt
  by_cases hi : i < 0
  · rw [if_pos hi]; simp
  · rw [if_neg hi]; exact itosNat_ne_nil _

theorem digitsVal_append (l1 l2 : List Nat) (acc : Nat) :
    digitsVal (l1 ++ l2) acc
      = match digitsVal l1 acc with
        | none => none
        | some m => digitsVal l2 m := by
  induction l1 generalizing acc with
  | nil => rfl
  | cons c r ih =>
    rw [List.cons_append, digitsVal, digitsVal]
    by_cases hc : 48 ≤ c ∧ c ≤ 57
    · rw [if_pos hc, if_pos hc, ih]
    · rw [if_neg hc, if_neg hc]

theorem natDigits_val (fuel : Nat) :
    ∀ n acc, 1 ≤ n → n ≤ fuel →
      digitsVal (natDigits fuel n) acc
        = some (acc * 10 ^ (natDigits fuel n).length + n) := by
  induction fuel with
  | zero => intro n acc h1 h2; omega
  | succ f ih =>
    intro n acc h1 h2
    rw [natDigits, if_neg (by omega)]
    by_cases h10 : n / 10 = 0
    · rw [h10, natDigits_zero, List.nil_append, digitsVal, if_pos (by omega),
        digitsVal]
      simp only [List.length_cons, List.length_nil]
      congr 1
      have hmod : n % 10 = n := by omega
      rw [pow_one]
      omega
    · have hle : n / 10 ≤ f := by omega
      rw [digitsVal_append, ih (n / 10) acc (by omega) hle]
      dsimp only
      rw [digitsVal, if_pos (by omega), digitsVal]
      simp only [List.length_append, List.length_cons, List.length_nil]
      congr 1
      rw [pow_succ]
      have h48 : 48 + n % 10 - 48 = n % 10 := by omega
      rw [h48]
      calc (acc * 10 ^ (natDigits f (n / 10)).length + n / 10) * 10 + n % 10
          = acc * (10 ^ (natDigits f (n / 10)).length * 10)
              + (n / 10 * 10 + n % 10) := by ring
        _ = acc * (10 ^ (natDigits f (n / 10)).length * 10) + n := by
            rw [show n / 10 * 10 + n % 10 = n from by omega]

theorem digitsVal_itosNat (n : Nat) : digitsVal (itosNat n) 0 = some n := by
  unfold itosNat
  by_cases hn : n = 0
  · rw [if_pos hn, hn]; rfl
  · rw [if_neg hn, natDigits_val n n 0 (by omega) (Nat.le_refl n)]
    simp

theorem stripPlus_itosNat (n : Nat) : stripPlus (itosNat n) = itosNat n := by
  cases hl : itosNat n with
  | nil => exact absurd hl (itosNat_ne_nil n)
  | cons c r =>
    have hc : 48 ≤ c ∧ c ≤ 57 := itosNat_mem n c (hl ▸ List.mem_cons_self _ _)
    rw [stripPlus]
    rw [if_neg (by omega)]

theorem stoiU16_itosNat (n : Nat) (h : n < 65536) :
    stoiU16 (itosNat n) = Except.ok n := by
  unfold stoiU16
  rw [stripPlus_itosNat, if_neg (itosNat_ne_nil n), digitsVal_itosNat]
  dsimp only
  rw [if_pos h]

theorem stoiI16_itosInt (i : Int) (h1 : -32768 ≤ i) (h2 : i ≤ 32767) :
    stoiI16 (itosInt i) = Except.ok i := by
  by_cases hi : i < 0
  · have hser : itosInt i = 45 :: itosNat i.natAbs := by
      unfold itosInt; rw [if_pos hi]
    rw [hser, stoiI16, if_pos rfl, if_neg (itosNat_ne_nil _), digitsVal_itosNat]
    dsimp only
    rw [if_pos (by omega)]
    congr 1
    omega
  · have hser : itosInt i = itosNat i.toNat := by
      unfold itosInt; rw [if_neg hi]
    cases hl : itosNat i.toNat with
    | nil => exact absurd hl (itosNat_ne_nil _)
    | cons c r =>
      have hc : 48 ≤ c ∧ c ≤ 57 := itosNat_mem _ c (hl ▸ List.mem_cons_self _ _)
      rw [hser, hl, stoiI16, if_neg (by omega)]
      rw [← hl, stripPlus_itosNat, hl]
      rw [if_neg (by simp), ← hl, digitsVal_itosNat]
      dsimp only
      rw [if_pos (by omega)]
      congr 1
      omega

theorem notsep_of_ne (c : Nat) (h32 : c ≠ 32) (h10 : c ≠ 10) :
    (!(c == 32 || c == 10)) = true := by
  simp [h32, h10]

theorem cleanStr_word (s : List Nat) (h : cleanStr s) :
    ∀ c ∈ s, (!(c == 32 || c == 10)) = true :=
  fun c hc => notsep_of_ne c (h c hc).2.1 (h c hc).2.2

theorem itosNat_word (n : Nat) :
    ∀ c ∈ itosNat n, (!(c == 32 || c == 10)) = true := by
  intro c hc
  have := itosNat_mem n c hc
  exact notsep_of_ne c (by omega) (by omega)

theorem itosInt_word (i : Int) :
    ∀ c ∈ itosInt i, (!(c == 32 || c == 10)) = true := by
  intro c hc
  rcases itosInt_mem i c hc with h | h
  · exact notsep_of_ne c (by omega) (by omega)
  · exact notsep_of_ne c (by omega) (by omega)

theorem itosInt_no_comma (i : Int) : ∀ c ∈ itosInt i, c ≠ 44 := by
  intro c hc
  rcases itosInt_mem i c hc with h | h <;> omega

theorem take_word_cons_sep (x : List Nat) : take_word (32 :: x) = take_word x := by
  unfold take_word take_space
  rw [List.dropWhile_cons, if_pos (by decide)]

theorem take_word_mid (w d' : List Nat)
    (hw : ∀ c ∈ w, (!(c == 32 || c == 10)) = true) (hne : w ≠ []) :
    take_word (w ++ 32 :: d') = (w, 32 :: d') := by
  obtain ⟨c, r, rfl⟩ : ∃ c r, w = c :: r := by
    cases w with
    | nil => exact absurd rfl hne
    | cons c r => exact ⟨c, r, rfl⟩
  have hc := hw c (List.mem_cons_self _ _)
  have hcf : (c == 32 || c == 10) = false := by
    revert hc; cases (c == 32 || c == 10) <;> simp
  have hds : take_space ((c :: r) ++ 32 :: d') = (c :: r) ++ 32 :: d' := by
    unfold take_space
    rw [List.cons_append, List.dropWhile_cons, if_neg (by rw [hcf]; simp),
      ← List.cons_append]
  unfold take_word
  rw [hds]
  have hsplit := takeWhile_append_sep (fun ch => !(ch == 32 || ch == 10))
    (c :: r) 32 d' hw (by decide)
  rw [hsplit.1, hsplit.2]

theorem take_word_last (w : List Nat)
    (hw : ∀ c ∈ w, (!(c == 32 || c == 10)) = true) (hne : w ≠ []) :
    take_word w = (w, []) := by
  obtain ⟨c, r, rfl⟩ : ∃ c r, w = c :: r := by
    cases w with
    | nil => exact absurd rfl hne
    | cons c r => exact ⟨c, r, rfl⟩
  have hc := hw c (List.mem_cons_self _ _)
  have hcf : (c == 32 || c == 10) = false := by
    revert hc; cases (c == 32 || c == 10) <;> simp
  have hds : take_space (c :: r) = c :: r := by
    unfold take_space
    rw [List.dropWhile_cons, if_neg (by rw [hcf]; simp)]
  unfold take_word
  rw [hds]
  have hall := takeWhile_all (fun ch => !(ch == 32 || ch == 10)) (c :: r) hw
  rw [hall.1, hall.2]

theorem splitComma_no (k : List Nat) (hk : ∀ c ∈ k, c ≠ 44) :
    splitComma k = [k] := by
  induction k with
  | nil => rfl
  | cons c r ih =>
    rw [splitComma, if_neg (hk c (List.mem_cons_self _ _)),
      ih (fun x hx => hk x (List.mem_cons.mpr (Or.inr hx)))]

theorem splitComma_sep (k rest : List Nat) (hk : ∀ c ∈ k, c ≠ 44) :
    splitComma (k ++ 44 :: rest) = k :: splitComma rest := by
  induction k with
  | nil => rw [List.nil_append, splitComma, if_pos rfl]
  | cons c r ih =>
    rw [List.cons_append, splitComma, if_neg (hk c (List.mem_cons_self _ _)),
      ih (fun x hx => hk x (List.mem_cons.mpr (Or.inr hx)))]

theorem undefined_w_word : ∀ c ∈ UNDEFINED_W, (!(c == 32 || c == 10)) = true := by
  decide

theorem current_player_w_word :
    ∀ c ∈ CURRENT_PLAYER_W, (!(c == 32 || c == 10)) = true := by
  decide

theorem player_p_word : ∀ c ∈ PLAYER_P, (!(c == 32 || c == 10)) = true := by
  decide

theorem nodemeta_p_word : ∀ c ∈ NODEMETA_P, (!(c == 32 || c == 10)) = true := by
  decide

theorem detached_p_word : ∀ c ∈ DETACHED_P, (!(c == 32 || c == 10)) = true := by
  decide

theorem loc_ser_clean (loc : InventoryLocation) (hc : cleanLoc loc) :
    ∀ c ∈ InventoryLocation.ser loc, (!(c == 32 || c == 10)) = true := by
  cases loc with
  | undefined =>
    intro c hc'
    rw [InventoryLocation.ser] at hc'
    exact undefined_w_word c hc'
  | current_player =>
    intro c hc'
    rw [InventoryLocation.ser] at hc'
    exact current_player_w_word c hc'
  | player name =>
    intro c hc'
    rw [InventoryLocation.ser] at hc'
    rcases List.mem_append.mp hc' with h | h
    · exact player_p_word c h
    · exact cleanStr_word name hc c h
  | nodemeta x y z =>
    intro c hc'
    rw [InventoryLocation.ser] at hc'
    simp only [List.mem_append, List.mem_singleton] at hc'
    rcases hc' with ((((h | h) | h) | h) | h) | h
    · exact nodemeta_p_word c h
    · exact itosInt_word x c h
    · exact notsep_of_ne c (by omega) (by omega)
    · exact itosInt_word y c h
    · exact notsep_of_ne c (by omega) (by omega)
    · exact itosInt_word z c h
  | detached name =>
    intro c hc'
    rw [InventoryLocation.ser] at hc'
    rcases List.mem_append.mp hc' with h | h
    · exact detached_p_word c h
    · exact cleanStr_word name hc c h

theorem loc_ser_ne_nil (loc : InventoryLocation) :
    InventoryLocation.ser loc ≠ [] := by
  cases loc <;> rw [InventoryLocation.ser] <;> simp [UNDEFINED_W,
    CURRENT_PLAYER_W, PLAYER_P, NODEMETA_P, DETACHED_P]

theorem loc_deser_mid (loc : InventoryLocation) (hc : cleanLoc loc)
    (d' : List Nat) :
    InventoryLocation.deser (32 :: (InventoryLocation.ser loc ++ 32 :: d'))
      = Except.ok (loc, 32 :: d') := by
  have hw := take_word_mid (InventoryLocation.ser loc) d'
    (loc_ser_clean loc hc) (loc_ser_ne_nil loc)
  unfold InventoryLocation.deser
  rw [take_word_cons_sep, hw]
  dsimp only
  cases loc with
  | undefined =>
    rw [InventoryLocation.ser, if_pos rfl]
  | current_player =>
    rw [InventoryLocation.ser, if_neg (by decide), if_pos rfl]
  | player name =>
    rw [InventoryLocation.ser]
    rw [if_neg (by simp [PLAYER_P, UNDEFINED_W])]
    rw [if_neg (by simp [PLAYER_P, CURRENT_PLAYER_W])]
    rw [if_pos (show (PLAYER_P ++ name).take 7 = PLAYER_P by simp [PLAYER_P])]
    rw [show (PLAYER_P ++ name).drop 7 = name by simp [PLAYER_P]]
  | nodemeta x y z =>
    obtain ⟨hx, hy, hz⟩ := hc
    simp only [InventoryLocation.ser, List.append_assoc, List.cons_append,
      List.singleton_append, List.nil_append]
    rw [if_neg (by simp [NODEMETA_P, UNDEFINED_W])]
    rw [if_neg (by simp [NODEMETA_P, CURRENT_PLAYER_W])]
    rw [if_neg (by
      rw [show (NODEMETA_P ++ (itosInt x ++ 44 :: (itosInt y ++ 44 :: itosInt z))).take 7
          = [110, 111, 100, 101, 109, 101, 116] by simp [NODEMETA_P]]
      decide)]
    rw [if_pos (show (NODEMETA_P ++ (itosInt x ++ 44 :: (itosInt y ++ 44 :: itosInt z))).take 9
        = NODEMETA_P by simp [NODEMETA_P])]
    rw [show (NODEMETA_P ++ (itosInt x ++ 44 :: (itosInt y ++ 44 :: itosInt z))).drop 9
        = itosInt x ++ 44 :: (itosInt y ++ 44 :: itosInt z) by simp [NODEMETA_P]]
    rw [splitComma_sep (itosInt x) _ (itosInt_no_comma x),
      splitComma_sep (itosInt y) _ (itosInt_no_comma y),
      splitComma_no (itosInt z) (itosInt_no_comma z)]
    dsimp only
    rw [stoiI16_itosInt x hx.1 hx.2, stoiI16_itosInt y hy.1 hy.2,
      stoiI16_itosInt z hz.1 hz.2]
  | detached name =>
    rw [InventoryLocation.ser]
    rw [if_neg (by simp [DETACHED_P, UNDEFINED_W])]
    rw [if_neg (by simp [DETACHED_P, CURRENT_PLAYER_W])]
    rw [if_neg (by
      rw [show (DETACHED_P ++ name).take 7 = [100, 101, 116, 97, 99, 104, 101]
        by simp [DETACHED_P]]
      decide)]
    rw [if_neg (by
      rw [show (DETACHED_P ++ name).take 9 = DETACHED_P by simp [DETACHED_P]]
      decide)]
    rw [if_pos (show (DETACHED_P ++ name).take 9 = DETACHED_P by simp [DETACHED_P])]
    rw [show (DETACHED_P ++ name).drop 9 = name by simp [DETACHED_P]]

theorem act_deser_ser (a : InventoryAction) (hc : cleanAct a) :
    InventoryAction.deser (InventoryAction.ser a)
      = Except.ok (a, trailingRest a) := by
  cases a with
  | Move count fi fl fx ti tl t? =>
    obtain ⟨h1, h2, h3, h4, h5, h6, h7, h8, h9⟩ := hc
    cases t? with
    | some t =>
      simp only [InventoryAction.ser, trailingRest, List.append_assoc,
        List.cons_append, List.singleton_append, List.nil_append, List.append_nil]
      unfold InventoryAction.deser
      rw [take_word_mid MOVE_W _ (by decide) (by decide)]
      dsimp only
      rw [if_pos (Or.inl rfl)]
      rw [take_word_cons_sep,
        take_word_mid (itosNat count) _ (itosNat_word count) (itosNat_ne_nil count)]
      dsimp only
      rw [stoiU16_itosNat count h1]
      dsimp only
      rw [loc_deser_mid fi h2]
      dsimp only
      rw [take_word_cons_sep, take_word_mid fl _ (cleanStr_word fl h3) h4]
      dsimp only
      rw [take_word_cons_sep,
        take_word_mid (itosInt fx) _ (itosInt_word fx) (itosInt_ne_nil fx)]
      dsimp only
      rw [stoiI16_itosInt fx h5.1 h5.2]
      dsimp only
      rw [loc_deser_mid ti h6]
      dsimp only
      rw [take_word_cons_sep, take_word_mid tl _ (cleanStr_word tl h7) h8]
      dsimp only
      rw [if_pos rfl]
      rw [take_word_cons_sep,
        take_word_last (itosInt t) (itosInt_word t) (itosInt_ne_nil t)]
      dsimp only
      rw [stoiI16_itosInt t h9.1 h9.2]
    | none =>
      simp only [InventoryAction.ser, trailingRest, List.append_assoc,
        List.cons_append, List.singleton_append, List.nil_append, List.append_nil]
      unfold InventoryAction.deser
      rw [take_word_mid MOVE_SOMEWHERE_W _ (by decide) (by decide)]
      dsimp only
      rw [if_pos (Or.inr rfl)]
      rw [take_word_cons_sep,
        take_word_mid (itosNat count) _ (itosNat_word count) (itosNat_ne_nil count)]
      dsimp only
      rw [stoiU16_itosNat count h1]
      dsimp only
      rw [loc_deser_mid fi h2]
      dsimp only
      rw [take_word_cons_sep, take_word_mid fl _ (cleanStr_word fl h3) h4]
      dsimp only
      rw [take_word_cons_sep,
        take_word_mid (itosInt fx) _ (itosInt_word fx) (itosInt_ne_nil fx)]
      dsimp only
      rw [stoiI16_itosInt fx h5.1 h5.2]
      dsimp only
      rw [loc_deser_mid ti h6]
      dsimp only
      rw [take_word_cons_sep, take_word_last tl (cleanStr_word tl h7) h8]
      dsimp only
      rw [if_neg (by decide)]
  | Craft count ci =>
    obtain ⟨h1, h2⟩ := hc
    simp only [InventoryAction.ser, trailingRest, List.append_assoc,
      List.cons_append, List.singleton_append, List.nil_append, List.append_nil]
    unfold InventoryAction.deser
    rw [take_word_mid CRAFT_W _ (by decide) (by decide)]
    dsimp only
    rw [if_neg (by decide), if_neg (by decide), if_pos rfl]
    rw [take_word_cons_sep,
      take_word_mid (itosNat count) _ (itosNat_word count) (itosNat_ne_nil count)]
    dsimp only
    rw [stoiU16_itosNat count h1]
    dsimp only
    rw [loc_deser_mid ci h2]
  | Drop count fi fl fx =>
    obtain ⟨h1, h2, h3, h4, h5⟩ := hc
    simp only [InventoryAction.ser, trailingRest, List.append_assoc,
      List.cons_append, List.singleton_append, List.nil_append, List.append_nil]
    unfold InventoryAction.deser
    rw [take_word_mid DROP_W _ (by decide) (by decide)]
    dsimp only
    rw [if_neg (by decide), if_pos rfl]
    rw [take_word_cons_sep,
      take_word_mid (itosNat count) _ (itosNat_word count) (itosNat_ne_nil count)]
    dsimp only
    rw [stoiU16_itosNat count h1]
    dsimp only
    rw [loc_deser_mid fi h2]
    dsimp only
    rw [take_word_cons_sep, take_word_mid fl _ (cleanStr_word fl h3) h4]
    dsimp only
    rw [take_word_cons_sep,
      take_word_last (itosInt fx) (itosInt_word fx) (itosInt_ne_nil fx)]
    dsimp only
    rw [stoiI16_itosInt fx h5.1 h5.2]

/-- C9 (amended): the catalog-wide round-trip claim is false (see the
counterexample: embedded strings are cut at spaces), but it holds for
the `0x31` `InventoryAction` command under the side conditions the
text encoding needs: `u16`/`i16` numeric fields in range, inventory
names ASCII and free of space and newline, and the `from_list`/`to_list`
names nonempty. Deserializing the serialized command returns exactly
the original command, consuming everything except the trailing space
that `Craft` writes. -/
theorem inventory_action_roundtrip_amended (a : InventoryAction)
    (hc : cleanAct a) :
    ToServerCommand.deser (ToServerCommand.ser (ToServerCommand.InventoryActionCmd a))
      = Except.ok (ToServerCommand.InventoryActionCmd a, trailingRest a) := by
  unfold ToServerCommand.ser ToServerCommand.deser
  simp only [List.cons_append, List.nil_append]
  rw [if_pos (by norm_num)]
  rw [act_deser_ser a hc]

/-- Concrete instance of the amended C9 theorem: a `Move` action with a
`nodemeta` source and a `player` destination round-trips exactly. -/
theorem inventory_action_roundtrip_amended_witness :
    ToServerCommand.deser (ToServerCommand.ser
        (ToServerCommand.InventoryActionCmd
          (InventoryAction.Move 3 (InventoryLocation.nodemeta 1 (-2) 3) [102] 5
            (InventoryLocation.player [112]) [103] (some (-7)))))
      = Except.ok (ToServerCommand.InventoryActionCmd
          (InventoryAction.Move 3 (InventoryLocation.nodemeta 1 (-2) 3) [102] 5
            (InventoryLocation.player [112]) [103] (some (-7))), []) :=
  inventory_action_roundtrip_amended
    (InventoryAction.Move 3 (InventoryLocation.nodemeta 1 (-2) 3) [102] 5
      (InventoryLocation.player [112]) [103] (some (-7)))
    (by simp only [cleanAct, cleanLoc, cleanStr]; refine ⟨by decide, by decide,
      by decide, by decide, by decide, by decide, by decide, by decide, by decide⟩)

end Minetest
